import Mathlib

/-!
Shallow embedding of the wire-canonicalizer and drag/reroute subsystems of the
`circuit-sim` editor (sources: `src/editor/geom.ts`, `src/editor/wireNormalize.ts`,
`src/editor/moveAndReroute.ts`, and the application command layer).

Coordinates live in the grid-aligned integer world space of the editor, so points
are modelled with `Int` coordinates.  JavaScript `Map`s (which iterate in insertion
order and, on `set` with an existing key, keep the original position) are modelled
as insertion-ordered association lists; `Array.prototype.sort` (stable) is modelled
by a stable insertion sort.  String ids produced by `crypto.randomUUID()` are
modelled by an abstract injective generator `makeId : Nat → Nat` applied to the
position at which the source calls `makeId()`.
-/

namespace CircuitSim

/-- `Point` from `src/editor/grid.ts`: an (x, y) pair in world/grid space. -/
structure Point where
  x : Int
  y : Int
deriving DecidableEq, Repr

/-- Wire axis tag, the `"h" | "v"` union used throughout `wireNormalize.ts`. -/
inductive Axis where
  | h
  | v
deriving DecidableEq, Repr

/-- `WireSegment` from `src/editor/types.ts`: endpoints plus an identity. -/
structure WireSegment where
  id : Nat
  a : Point
  b : Point
deriving DecidableEq, Repr

/-- An axis-annotated, endpoint-ordered segment, the record produced by
`normalizeSegment` in `wireNormalize.ts`. -/
structure NSeg where
  a : Point
  b : Point
  axis : Axis
deriving DecidableEq, Repr

/-- A bare geometric segment (the `{ a, b }` records used for wire previews and
group entries). -/
structure RawSeg where
  a : Point
  b : Point
deriving DecidableEq, Repr

/-! ## Geometry primitives (`src/editor/geom.ts`) -/

/-- `manhattanSegments` from `geom.ts`: if already axis-aligned, a single segment;
otherwise an elbow going horizontally first through `(b.x, a.y)`. -/
def manhattanSegments (a b : Point) : List RawSeg :=
  if a.x = b.x ∨ a.y = b.y then
    [⟨a, b⟩]
  else
    let mid : Point := ⟨b.x, a.y⟩
    [⟨a, mid⟩, ⟨mid, b⟩]

/-- `manhattanFromFixed` from `geom.ts`: routing from a fixed endpoint to a moving
target.  If aligned, a single segment; otherwise, per the source, an incoming
horizontal segment bends vertically first (mid `(fixed.x, target.y)`) and an
incoming vertical segment bends horizontally first (mid `(target.x, fixed.y)`). -/
def manhattanFromFixed (fixed target : Point) (incomingAxis : Axis) : List RawSeg :=
  if fixed.x = target.x ∨ fixed.y = target.y then
    [⟨fixed, target⟩]
  else
    let mid : Point :=
      match incomingAxis with
      | .h => ⟨fixed.x, target.y⟩
      | .v => ⟨target.x, fixed.y⟩
    [⟨fixed, mid⟩, ⟨mid, target⟩]

/-! ## Segment normalization (`src/editor/wireNormalize.ts`) -/

/-- The `GeometryError` thrown by `normalizeSegment` on a diagonal segment. -/
structure GeometryError where
  msg : String
deriving DecidableEq, Repr

/-- A pair of endpoints differs on both axes (the condition that makes
`normalizeSegment` throw). -/
def nonManhattan (a b : Point) : Bool :=
  a.x ≠ b.x ∧ a.y ≠ b.y

/-- The total part of `normalizeSegment`: canonical endpoint ordering plus the
computed axis (vertical: lower y first; horizontal: lower x first).  The source
checks `a.x === b.x` first, so degenerate pairs are tagged vertical. -/
def orientSegment (a b : Point) : NSeg :=
  if a.x = b.x then
    if a.y ≤ b.y then ⟨a, b, .v⟩ else ⟨b, a, .v⟩
  else
    if a.x ≤ b.x then ⟨a, b, .h⟩ else ⟨b, a, .h⟩

/-- `normalizeSegment` from `wireNormalize.ts`, with the `throw` modelled as
`Except.error`. -/
def normalizeSegment (a b : Point) : Except GeometryError NSeg :=
  if a.x ≠ b.x ∧ a.y ≠ b.y then
    .error ⟨"Non-Manhattan segment: (" ++ toString a.x ++ "," ++ toString a.y ++
      ") -> (" ++ toString b.x ++ "," ++ toString b.y ++ ")"⟩
  else
    .ok (orientSegment a b)

/-- `pointOnSegment` from `wireNormalize.ts`: `p` lies on the inclusive span of a
normalized segment. -/
def pointOnSegment (p : Point) (s : NSeg) : Bool :=
  match s.axis with
  | .v => p.x = s.a.x ∧ p.y ≥ s.a.y ∧ p.y ≤ s.b.y
  | .h => p.y = s.a.y ∧ p.x ≥ s.a.x ∧ p.x ≤ s.b.x

/-- Insert a point into an insertion-ordered point set (`junctionSet.set` /
the `uniquePoints` map: re-inserting an existing coordinate key keeps the
original position and the value is coordinate-identical, so it is a no-op). -/
def insertPt (js : List Point) (p : Point) : List Point :=
  if p ∈ js then js else js ++ [p]

/-- `uniquePoints` from `wireNormalize.ts`: deduplicate by coordinates, keeping
first-insertion order. -/
def uniquePoints (pts : List Point) : List Point :=
  pts.foldl insertPt []

/-- Stable insertion of `x` into a list sorted by `key` (goes after all entries
with key ≤ its own), matching stable `Array.prototype.sort`. -/
def insertSorted (key : α → Int) (x : α) : List α → List α
  | [] => [x]
  | y :: ys => if key y ≤ key x then y :: insertSorted key x ys else x :: y :: ys

/-- Stable sort by an integer key (model of `Array.prototype.sort` with a
numeric comparator). -/
def sortByKey (key : α → Int) (l : List α) : List α :=
  l.foldl (fun acc x => insertSorted key x acc) []

/-- `sortAlongAxis` from `wireNormalize.ts`: sort points by the varying
coordinate of the given axis. -/
def sortAlongAxis (pts : List Point) (axis : Axis) : List Point :=
  sortByKey (fun p => match axis with | .v => p.y | .h => p.x) pts

/-- The varying coordinate of a point for a given axis (x on horizontal lines,
y on vertical ones). -/
def varCoord (axis : Axis) (p : Point) : Int :=
  match axis with
  | .h => p.x
  | .v => p.y

/-! ## PASS 1: merge collinear runs (`mergeCollinearRuns`) -/

/-- Append a segment to the group of its constant coordinate, creating the group
at the end on first use (JS `Map.get(k) ?? []` / `push` / `Map.set`, which keeps
insertion order). -/
def addToGroup (gs : List (Int × List RawSeg)) (k : Int) (s : RawSeg) :
    List (Int × List RawSeg) :=
  match gs with
  | [] => [(k, [s])]
  | (k', l) :: rest =>
    if k' = k then (k', l ++ [s]) :: rest else (k', l) :: addToGroup rest k s

/-- The left-to-right sweep of `mergeCollinearRuns` over one sorted group:
extend the current run on overlap, extend on exact end-touch (a branch the
source keeps although the overlap test already subsumes it), otherwise commit
the current run (unless degenerate) and start a new one. -/
def sweepRuns (axis : Axis) (curA curB : Point) : List NSeg → List NSeg
  | [] => if curA = curB then [] else [⟨curA, curB, axis⟩]
  | s :: rest =>
    if varCoord axis s.a ≤ varCoord axis curB then
      sweepRuns axis curA (if varCoord axis s.b > varCoord axis curB then s.b else curB) rest
    else if varCoord axis s.a = varCoord axis curB then
      sweepRuns axis curA s.b rest
    else
      (if curA = curB then [] else [⟨curA, curB, axis⟩]) ++ sweepRuns axis s.a s.b rest

/-- Merge one group: re-normalize its members (the source calls
`normalizeSegment`, which cannot throw here because group entries are already
axis aligned), sort by the start of the varying coordinate, and sweep. -/
def mergeGroup (axis : Axis) (group : List RawSeg) : List NSeg :=
  let sorted := sortByKey (fun s => varCoord axis s.a)
    (group.map (fun g => orientSegment g.a g.b))
  match sorted with
  | [] => []
  | s0 :: rest => sweepRuns axis s0.a s0.b rest

/-- The partition loop of `mergeCollinearRuns`: horizontals grouped by constant
y, verticals by constant x. -/
def partitionGroups (segs : List NSeg) :
    List (Int × List RawSeg) × List (Int × List RawSeg) :=
  segs.foldl
    (fun (gv : List (Int × List RawSeg) × List (Int × List RawSeg)) s =>
      match s.axis with
      | .h => (addToGroup gv.1 s.a.y ⟨s.a, s.b⟩, gv.2)
      | .v => (gv.1, addToGroup gv.2 s.a.x ⟨s.a, s.b⟩))
    ([], [])

/-- `mergeCollinearRuns` from `wireNormalize.ts`: partition by axis and constant
coordinate, then merge overlaps/adjacency within each group; horizontal groups
are emitted first, as in the source. -/
def mergeCollinearRuns (segs : List NSeg) : List NSeg :=
  let groups := partitionGroups segs
  (groups.1.flatMap (fun g => mergeGroup .h g.2)) ++
    (groups.2.flatMap (fun g => mergeGroup .v g.2))

/-! ## PASS 2: junctions, splitting, dedupe (`normalizeAndSegmentWires`) -/

/-- Step (b) of the junction collection: perpendicular intersections of a
vertical and a horizontal run whose point lies within both spans. -/
def crossJunctions (runs : List NSeg) (js : List Point) : List Point :=
  let verticals := runs.filter (fun r => r.axis == Axis.v)
  let horizontals := runs.filter (fun r => r.axis == Axis.h)
  verticals.foldl (fun js1 v =>
    horizontals.foldl (fun js2 h =>
      if v.a.x ≥ h.a.x ∧ v.a.x ≤ h.b.x ∧ h.a.y ≥ v.a.y ∧ h.a.y ≤ v.b.y then
        insertPt js2 ⟨v.a.x, h.a.y⟩
      else js2) js1) js

/-- Step (c) of the junction collection: re-add every already-collected point
that lies on some run (in the source this never inserts a new key, since every
point iterated is already in the junction set). -/
def containmentPass (runs : List NSeg) (js : List Point) : List Point :=
  runs.foldl (fun js1 r =>
    js.foldl (fun js2 p => if pointOnSegment p r then insertPt js2 p else js2) js1) js

/-- Consecutive pairs of a list (`sorted[i]`, `sorted[i+1]`). -/
def pairsConsec : List Point → List (Point × Point)
  | a :: b :: rest => (a, b) :: pairsConsec (b :: rest)
  | _ => []

/-- The deduplicated, axis-sorted junction points lying on a run. -/
def cutsSorted (junctions : List Point) (r : NSeg) : List Point :=
  sortAlongAxis (uniquePoints (junctions.filter (fun p => pointOnSegment p r))) r.axis

/-- Split one run at the junction points lying on it, emitting a normalized
segment between every consecutive pair of distinct sorted cut points. -/
def splitRun (junctions : List Point) (r : NSeg) : List NSeg :=
  (pairsConsec (cutsSorted junctions r)).filterMap
    (fun ab => if ab.1 = ab.2 then none else some (orientSegment ab.1 ab.2))

/-- `segmentKey` from `wireNormalize.ts`: axis flag (true = vertical), constant
coordinate, and min/max of the varying coordinate. -/
def segmentKey (a b : Point) : Bool × Int × Int × Int :=
  if a.x = b.x then (true, a.x, min a.y b.y, max a.y b.y)
  else (false, a.y, min a.x b.x, max a.x b.x)

/-- `byKey.set` on the final dedupe map: replace the value at an existing key
(keeping its position) or append a fresh entry. -/
def upsertSeg (acc : List NSeg) (s : NSeg) : List NSeg :=
  if acc.any (fun t => segmentKey t.a t.b == segmentKey s.a s.b) then
    acc.map (fun t => if segmentKey t.a t.b == segmentKey s.a s.b then s else t)
  else acc ++ [s]

/-- The final dedupe of emitted pieces by geometry key. -/
def dedupeSegs (pieces : List NSeg) : List NSeg :=
  pieces.foldl upsertSeg []

/-- Step (a) of the junction collection: both endpoints of every run, in
insertion order. -/
def runEndpoints (runs : List NSeg) : List Point :=
  runs.foldl (fun js r => insertPt (insertPt js r.a) r.b) []

/-- The full junction set of PASS 2: run endpoints, extra junction points,
perpendicular intersections, and the (inert) endpoint-on-run containment
pass. -/
def junctionsOf (runs : List NSeg) (extraJunctionPoints : List Point) : List Point :=
  containmentPass runs
    (crossJunctions runs (extraJunctionPoints.foldl insertPt (runEndpoints runs)))

/-- The body of `normalizeAndSegmentWires` after input validation: drop
zero-length segments, merge runs, collect junctions, split, dedupe, and assign
fresh ids. -/
def normalizeCore (base0 : List NSeg) (extraJunctionPoints : List Point)
    (makeId : Nat → Nat) : List WireSegment :=
  let base := base0.filter (fun s => !(s.a == s.b))
  let runs := mergeCollinearRuns base
  let junctions := junctionsOf runs extraJunctionPoints
  let pieces := runs.flatMap (splitRun junctions)
  let deduped := dedupeSegs pieces
  (deduped.filter (fun s => !(s.a == s.b))).mapIdx (fun i s => ⟨makeId i, s.a, s.b⟩)

/-- Map a fallible function over a list, stopping at the first error (the
semantics of `Array.prototype.map` with a throwing callback). -/
def mapExcept (f : α → Except ε β) : List α → Except ε (List β)
  | [] => .ok []
  | a :: as =>
    match f a with
    | .error e => .error e
    | .ok b =>
      match mapExcept f as with
      | .error e => .error e
      | .ok bs => .ok (b :: bs)

/-- `normalizeAndSegmentWires` from `wireNormalize.ts`: the public canonicalizer.
Throws (`Except.error`) on any non-axis-aligned input segment. -/
def normalizeAndSegmentWires (wires : List WireSegment) (extraJunctionPoints : List Point)
    (makeId : Nat → Nat) : Except GeometryError (List WireSegment) :=
  if wires.isEmpty then .ok []
  else
    match mapExcept (fun w => normalizeSegment w.a w.b) wires with
    | .error e => .error e
    | .ok base => .ok (normalizeCore base extraJunctionPoints makeId)

/-! ## Port splicer -/

/-- A two-port pair (`PortPair` in `wireNormalize.ts`). -/
structure PortPair where
  a : Point
  b : Point
deriving DecidableEq, Repr

/-- `samePoint` from `wireNormalize.ts`. -/
def samePoint (p q : Point) : Bool :=
  p.x = q.x ∧ p.y = q.y

/-- `pointStrictlyBetweenPorts` from `wireNormalize.ts`: `p` lies strictly
between the two port points on their shared axis line. -/
def pointStrictlyBetweenPorts (p a b : Point) : Bool :=
  if a.x = b.x then
    p.x = a.x ∧ p.y > min a.y b.y ∧ p.y < max a.y b.y
  else if a.y = b.y then
    p.y = a.y ∧ p.x > min a.x b.x ∧ p.x < max a.x b.x
  else false

/-- `spliceOutBetweenPorts` from `wireNormalize.ts`: delete the wire span between
an axis-aligned port pair unless a foreign endpoint lies strictly between the
ports, in which case the wire list is returned unchanged. -/
def spliceOutBetweenPorts (wires : List WireSegment) (pair : PortPair) : List WireSegment :=
  let p1 := pair.a
  let p2 := pair.b
  let isVertical := p1.x = p2.x
  let isHorizontal := p1.y = p2.y
  if ¬isVertical ∧ ¬isHorizontal then wires
  else if wires.any (fun s => [s.a, s.b].any (fun ep =>
      !(samePoint ep p1) && !(samePoint ep p2) && pointStrictlyBetweenPorts ep p1 p2)) then
    wires
  else if isVertical then
    wires.filter (fun s =>
      if s.a.x ≠ s.b.x then true
      else if s.a.x ≠ p1.x then true
      else !(min s.a.y s.b.y ≥ min p1.y p2.y && max s.a.y s.b.y ≤ max p1.y p2.y))
  else
    wires.filter (fun s =>
      if s.a.y ≠ s.b.y then true
      else if s.a.y ≠ p1.y then true
      else !(min s.a.x s.b.x ≥ min p1.x p2.x && max s.a.x s.b.x ≤ max p1.x p2.x))

/-- A named port of a component (`{ name, pos }` as returned by
`portWorldPositions`). -/
structure CPort where
  name : String
  pos : Point
deriving DecidableEq, Repr

/-- `ComponentInstance` from `src/editor/types.ts` (the `rotation` and `params`
fields are never read by the embedded operations, which consume port positions
through the abstract `portWorldPositions`, so they are omitted here). -/
structure ComponentInstance where
  id : Nat
  typeId : Nat
  pos : Point
deriving DecidableEq, Repr

/-- The slice of `ComponentType` consumed by the splicer and the reroute
session: the component's port world positions. -/
structure ComponentType where
  portWorldPositions : ComponentInstance → List CPort

/-- `getTwoPortPairs` from `wireNormalize.ts`: one pair per component exposing
exactly two ports; components with any other port count are skipped. -/
def getTwoPortPairs (components : List ComponentInstance)
    (getType : Nat → ComponentType) : List PortPair :=
  components.foldl (fun out inst =>
    match (getType inst.typeId).portWorldPositions inst with
    | [p, q] => out ++ [⟨p.pos, q.pos⟩]
    | _ => out) []

/-- `normalizeAndSpliceWires` from `wireNormalize.ts`: normalize with all
two-port pairs as extra junctions, then splice between each pair. -/
def normalizeAndSpliceWires (wires : List WireSegment) (components : List ComponentInstance)
    (getType : Nat → ComponentType) (makeId : Nat → Nat) :
    Except GeometryError (List WireSegment) :=
  if wires.isEmpty then .ok []
  else do
    let pairs := getTwoPortPairs components getType
    let portPoints := pairs.flatMap (fun p => [p.a, p.b])
    let out ← normalizeAndSegmentWires wires portPoints makeId
    .ok (pairs.foldl spliceOutBetweenPorts out)

/-! ## Drag/reroute session (`src/editor/moveAndReroute.ts` and the app command
layer).  The closure-captured locals of `createMoveAndReroute` and the app's id
source are gathered into one state record; rendering callbacks are dropped. -/

/-- `DragWireAttachment` from `moveAndReroute.ts`. -/
structure DragWireAttachment where
  fixed : Point
  incomingAxis : Axis
  portOffset : Point
deriving DecidableEq, Repr

/-- The editor selection (`src/editor/selection.ts`): a single component or
wire, or nothing. -/
inductive Selection where
  | component (id : Nat)
  | wire (id : Nat)
deriving DecidableEq, Repr

/-- `EditorState` from `src/editor/state.ts`. -/
structure EditorState where
  components : List ComponentInstance
  wires : List WireSegment
  selection : Option Selection
deriving DecidableEq, Repr

/-- The `moveDrag` local of `createMoveAndReroute`. -/
structure MoveDrag where
  id : Nat
  offset : Point
deriving DecidableEq, Repr

/-- The combined mutable state: editor state, the reroute-session locals of
`createMoveAndReroute`, and the fresh-id counter standing in for
`crypto.randomUUID`. -/
structure AppState where
  state : EditorState
  rerouteOwnerId : Option Nat
  rerouteAttachments : List DragWireAttachment
  dragWirePreview : List RawSeg
  moveDrag : Option MoveDrag
  nextId : Nat
deriving DecidableEq, Repr

/-- `rebuildReroutePreview`: one `manhattanFromFixed` route per attachment, from
its fixed end to the port's current world position. -/
def rebuildReroutePreview (inst : ComponentInstance)
    (attachments : List DragWireAttachment) : List RawSeg :=
  attachments.flatMap (fun a =>
    manhattanFromFixed a.fixed
      ⟨inst.pos.x + a.portOffset.x, inst.pos.y + a.portOffset.y⟩ a.incomingAxis)

/-- A wire endpoint coincides with the given point. -/
def wireTouches (w : WireSegment) (p : Point) : Bool :=
  samePoint w.a p || samePoint w.b p

/-- The attachment captured for one detached wire in
`beginRerouteForSelectedComponent`. -/
def mkAttachment (w : WireSegment) (port : CPort) (inst : ComponentInstance) :
    DragWireAttachment :=
  let isA := samePoint w.a port.pos
  { fixed := if isA then w.b else w.a
    incomingAxis := if w.a.y = w.b.y then .h else .v
    portOffset := ⟨port.pos.x - inst.pos.x, port.pos.y - inst.pos.y⟩ }

/-- The port-by-port detach loop of `beginRerouteForSelectedComponent`.  The
source scans the wire array from the last index down, pushing an attachment and
splicing out each wire whose endpoint coincides with the port; this removes
exactly the touching wires and captures them in reverse array order. -/
def detachLoop (ports : List CPort) (inst : ComponentInstance)
    (wires : List WireSegment) : List WireSegment × List DragWireAttachment :=
  ports.foldl (fun acc port =>
    (acc.1.filter (fun w => !(wireTouches w port.pos)),
     acc.2 ++ (acc.1.reverse.filter (fun w => wireTouches w port.pos)).map
       (fun w => mkAttachment w port inst)))
    (wires, [])

/-- `beginRerouteForSelectedComponent` from `moveAndReroute.ts`: detach every
wire touching a port of the component, record attachments, take ownership, and
build the initial preview.  Missing component: no state change. -/
def beginRerouteForSelectedComponent (getType : Nat → ComponentType)
    (st : AppState) (id : Nat) : AppState :=
  match st.state.components.find? (fun c => c.id == id) with
  | none => st
  | some inst =>
    let r := detachLoop ((getType inst.typeId).portWorldPositions inst) inst st.state.wires
    { st with
      state := { st.state with wires := r.1 }
      rerouteOwnerId := some id
      rerouteAttachments := r.2
      dragWirePreview := rebuildReroutePreview inst r.2 }

/-- `startDrag` from `moveAndReroute.ts`: initialise the reroute session unless
this component already owns it, then record the move-drag offset. -/
def startDrag (getType : Nat → ComponentType) (st : AppState) (id : Nat)
    (pointerWorld : Point) : AppState :=
  match st.state.components.find? (fun c => c.id == id) with
  | none => st
  | some inst =>
    let st1 := if st.rerouteOwnerId ≠ some id
      then beginRerouteForSelectedComponent getType st id else st
    let drag : MoveDrag := ⟨id, ⟨inst.pos.x - pointerWorld.x, inst.pos.y - pointerWorld.y⟩⟩
    { st1 with moveDrag := some drag }

/-- The app-level `normalizeWires` action: replace the wire set with
`normalizeAndSpliceWires` of itself (fresh ids drawn from the counter). -/
def normalizeWiresApp (getType : Nat → ComponentType) (st : AppState) :
    Except GeometryError AppState := do
  let ws ← normalizeAndSpliceWires st.state.wires st.state.components getType
    (fun i => st.nextId + i)
  .ok { st with state := { st.state with wires := ws }, nextId := st.nextId + ws.length }

/-- `commitReroutePreview` from `moveAndReroute.ts`: push every non-degenerate
preview segment as a fresh wire, normalize once, and clear the preview.  An
empty preview returns immediately. -/
def commitReroutePreview (getType : Nat → ComponentType) (st : AppState) :
    Except GeometryError AppState :=
  if st.dragWirePreview.isEmpty then .ok st
  else do
    let pushed := st.dragWirePreview.filter (fun s => !(s.a == s.b))
    let newWires := pushed.mapIdx (fun i s => WireSegment.mk (st.nextId + i) s.a s.b)
    let st1 := { st with
      state := { st.state with wires := st.state.wires ++ newWires }
      nextId := st.nextId + newWires.length }
    let st2 ← normalizeWiresApp getType st1
    .ok { st2 with dragWirePreview := [] }

/-- `clearSelection` from `moveAndReroute.ts`: commit the preview, reset the
session locals and the move drag, and clear the editor selection. -/
def clearSelection (getType : Nat → ComponentType) (st : AppState) :
    Except GeometryError AppState := do
  let st1 ← commitReroutePreview getType st
  .ok { st1 with
    rerouteOwnerId := none
    rerouteAttachments := []
    dragWirePreview := []
    moveDrag := none
    state := { st1.state with selection := none } }

/-- `deleteSelection` from the app command layer: delete the selected component
(then tear down via `clearSelection`) or the selected wire (then re-normalize
and tear down). -/
def deleteSelection (getType : Nat → ComponentType) (st : AppState) :
    Except GeometryError AppState :=
  match st.state.selection with
  | none => .ok st
  | some (.component id) =>
    clearSelection getType
      { st with state := { st.state with
          components := st.state.components.filter (fun c => !(c.id == id)) } }
  | some (.wire id) => do
    let st1 ← normalizeWiresApp getType
      { st with state := { st.state with
          wires := st.state.wires.filter (fun w => !(w.id == id)) } }
    clearSelection getType st1

/-- The abort predicate of `spliceOutBetweenPorts` as one boolean. -/
def spliceAbort (wires : List WireSegment) (p1 p2 : Point) : Bool :=
  wires.any (fun s => [s.a, s.b].any (fun ep =>
    !(samePoint ep p1) && !(samePoint ep p2) && pointStrictlyBetweenPorts ep p1 p2))

/-- Claim-side predicate for C5: the point lies on the straight line through the
two (axis-aligned) ports, within the closed interval they bound. -/
def withinPortSpan (pair : PortPair) (p : Point) : Bool :=
  if pair.a.x = pair.b.x then
    p.x = pair.a.x ∧ min pair.a.y pair.b.y ≤ p.y ∧ p.y ≤ max pair.a.y pair.b.y
  else
    p.y = pair.a.y ∧ min pair.a.x pair.b.x ≤ p.x ∧ p.x ≤ max pair.a.x pair.b.x

/-! ## Concrete fixtures for the splice and session claims -/

/-- A two-port component type with ports at the instance position and 100 world
units to its right (a stand-in for the registered resistor type). -/
def hType100 : ComponentType :=
  ⟨fun inst => [⟨"A", inst.pos⟩, ⟨"B", ⟨inst.pos.x + 100, inst.pos.y⟩⟩]⟩

/-- A single-port component type (port at the instance position). -/
def onePortType : ComponentType :=
  ⟨fun inst => [⟨"A", inst.pos⟩]⟩

/-- A component instance at the origin. -/
def comp1 : ComponentInstance := ⟨1, 0, ⟨0, 0⟩⟩

/-- A component-type lookup for the session scenarios: every type id resolves
to the one-port type. -/
def sessionGetType : Nat → ComponentType := fun _ => onePortType

/-- A session scenario: one one-port component at the origin (selected), one
wire `(0,0)-(10,0)` attached to its port, no session active. -/
def st0 : AppState where
  state := { components := [comp1], wires := [⟨0, ⟨0,0⟩, ⟨10,0⟩⟩],
             selection := some (.component 1) }
  rerouteOwnerId := none
  rerouteAttachments := []
  dragWirePreview := []
  moveDrag := none
  nextId := 2

/-- The scenario after beginning a reroute session for component 1: the wire is
detached, one attachment is captured, and the preview holds its route. -/
def st1 : AppState := beginRerouteForSelectedComponent sessionGetType st0 1

/-! ## Proof vocabulary for the canonicalizer -/

/-- The constant coordinate of a point for a given axis (y on horizontal lines,
x on vertical ones). -/
def constCoord (axis : Axis) (p : Point) : Int :=
  match axis with
  | .h => p.y
  | .v => p.x

/-- A well-formed normalized segment: both endpoints on one axis line, ordered,
and of non-zero length. -/
def NSeg.Wf (s : NSeg) : Prop :=
  constCoord s.axis s.a = constCoord s.axis s.b ∧
    varCoord s.axis s.a < varCoord s.axis s.b

/-- The validated, zero-length-filtered input of `normalizeCore`. -/
def coreBase (base0 : List NSeg) : List NSeg :=
  base0.filter (fun s => !(s.a == s.b))

/-- The merged runs of `normalizeCore`. -/
def coreRuns (base0 : List NSeg) : List NSeg :=
  mergeCollinearRuns (coreBase base0)

/-- The junction set of `normalizeCore`. -/
def coreJunctions (base0 : List NSeg) (extra : List Point) : List Point :=
  junctionsOf (coreRuns base0) extra

/-- The split pieces of `normalizeCore`. -/
def corePieces (base0 : List NSeg) (extra : List Point) : List NSeg :=
  (coreRuns base0).flatMap (splitRun (coreJunctions base0 extra))

/-- The deduplicated pieces of `normalizeCore`. -/
def coreDeduped (base0 : List NSeg) (extra : List Point) : List NSeg :=
  dedupeSegs (corePieces base0 extra)

/-- A weakly well-formed segment: on one axis line with ordered endpoints
(what `orientSegment` guarantees on axis-aligned input, zero length allowed). -/
def NSeg.WeakWf (s : NSeg) : Prop :=
  constCoord s.axis s.a = constCoord s.axis s.b ∧
    varCoord s.axis s.a ≤ varCoord s.axis s.b

/-- Membership of a segment in a keyed group list. -/
def inGroups (gs : List (Int × List RawSeg)) (k : Int) (g : RawSeg) : Prop :=
  ∃ l, (k, l) ∈ gs ∧ g ∈ l

/-- The keys of a group list. -/
def keysOf (gs : List (Int × List RawSeg)) : List Int :=
  gs.map Prod.fst

/-! ## Helper lemmas -/

lemma normalizeSegment_error_iff (a b : Point) :
    (∃ e, normalizeSegment a b = .error e) ↔ (a.x ≠ b.x ∧ a.y ≠ b.y) := by
  unfold normalizeSegment
  split
  · simp_all
  · simp_all

lemma normalizeSegment_ok (a b : Point) (h : ¬(a.x ≠ b.x ∧ a.y ≠ b.y)) :
    normalizeSegment a b = .ok (orientSegment a b) := by
  unfold normalizeSegment
  rw [if_neg h]

lemma mapExcept_normalizeSegment_error_iff (ws : List WireSegment) :
    (∃ e, mapExcept (fun w => normalizeSegment w.a w.b) ws = Except.error e) ↔
      ∃ w ∈ ws, w.a.x ≠ w.b.x ∧ w.a.y ≠ w.b.y := by
  induction ws with
  | nil => simp [mapExcept]
  | cons w ws ih =>
    by_cases hw : w.a.x ≠ w.b.x ∧ w.a.y ≠ w.b.y
    · obtain ⟨e, he⟩ := (normalizeSegment_error_iff w.a w.b).mpr hw
      simp [mapExcept, he, hw]
    · rcases hmm : mapExcept (fun w => normalizeSegment w.a w.b) ws with e | xs
      · simp only [hmm] at ih
        have h2 := ih.mp ⟨e, rfl⟩
        simp only [mapExcept, normalizeSegment_ok w.a w.b hw, hmm, List.mem_cons]
        constructor
        · intro _
          exact h2.imp (fun w' h => ⟨Or.inr h.1, h.2⟩)
        · intro _
          exact ⟨e, rfl⟩
      · simp only [hmm] at ih
        simp only [mapExcept, normalizeSegment_ok w.a w.b hw, hmm, List.mem_cons]
        constructor
        · rintro ⟨e, he⟩
          exact Except.noConfusion he
        · rintro ⟨w', hw', hc⟩
          rcases hw' with rfl | hw'
          · exact absurd hc hw
          · exact absurd (ih.mpr ⟨w', hw', hc⟩) (by simp)

lemma samePoint_iff (p q : Point) : samePoint p q = true ↔ p = q := by
  cases p
  cases q
  simp [samePoint, Point.mk.injEq]


lemma spliceOutBetweenPorts_eq (wires : List WireSegment) (pair : PortPair) :
    spliceOutBetweenPorts wires pair =
      (if ¬(pair.a.x = pair.b.x) ∧ ¬(pair.a.y = pair.b.y) then wires
       else if spliceAbort wires pair.a pair.b then wires
       else if pair.a.x = pair.b.x then
        wires.filter (fun s =>
          if s.a.x ≠ s.b.x then true
          else if s.a.x ≠ pair.a.x then true
          else !(min s.a.y s.b.y ≥ min pair.a.y pair.b.y &&
                 max s.a.y s.b.y ≤ max pair.a.y pair.b.y))
       else
        wires.filter (fun s =>
          if s.a.y ≠ s.b.y then true
          else if s.a.y ≠ pair.a.y then true
          else !(min s.a.x s.b.x ≥ min pair.a.x pair.b.x &&
                 max s.a.x s.b.x ≤ max pair.a.x pair.b.x))) := by
  rfl


lemma keep_eq_vertical (pair : PortPair) (hv : pair.a.x = pair.b.x)
    (s : WireSegment) :
    (if s.a.x ≠ s.b.x then true
     else if s.a.x ≠ pair.a.x then true
     else !(min s.a.y s.b.y ≥ min pair.a.y pair.b.y &&
            max s.a.y s.b.y ≤ max pair.a.y pair.b.y))
      = !(withinPortSpan pair s.a && withinPortSpan pair s.b) := by
  rw [Bool.eq_iff_iff]
  simp only [withinPortSpan, if_pos hv]
  by_cases h1 : s.a.x = s.b.x <;> by_cases h2 : s.a.x = pair.a.x <;>
    simp [h1, h2] <;> omega

lemma keep_eq_horizontal (pair : PortPair) (hv : ¬pair.a.x = pair.b.x)
    (hh : pair.a.y = pair.b.y) (s : WireSegment) :
    (if s.a.y ≠ s.b.y then true
     else if s.a.y ≠ pair.a.y then true
     else !(min s.a.x s.b.x ≥ min pair.a.x pair.b.x &&
            max s.a.x s.b.x ≤ max pair.a.x pair.b.x))
      = !(withinPortSpan pair s.a && withinPortSpan pair s.b) := by
  rw [Bool.eq_iff_iff]
  simp only [withinPortSpan, if_neg hv]
  by_cases h1 : s.a.y = s.b.y <;> by_cases h2 : s.a.y = pair.a.y <;>
    simp [h1, h2] <;> omega


/-! ## Canonicalizer infrastructure: points, orientation, sorting -/

lemma eq_of_coords (A : Axis) {p q : Point} (hc : constCoord A p = constCoord A q)
    (hv : varCoord A p = varCoord A q) : p = q := by
  cases A <;> cases p <;> cases q <;> simp_all [constCoord, varCoord]

lemma pointOnSegment_iff (p : Point) (r : NSeg) :
    pointOnSegment p r = true ↔
      constCoord r.axis p = constCoord r.axis r.a ∧
        varCoord r.axis r.a ≤ varCoord r.axis p ∧
        varCoord r.axis p ≤ varCoord r.axis r.b := by
  rcases r with ⟨a, b, ax⟩
  cases ax <;>
    simp [pointOnSegment, constCoord, varCoord, ge_iff_le, and_comm, and_assoc]

lemma orientSegment_endpoints (a b : Point) :
    ((orientSegment a b).a = a ∧ (orientSegment a b).b = b) ∨
    ((orientSegment a b).a = b ∧ (orientSegment a b).b = a) := by
  unfold orientSegment
  split <;> split <;> simp

lemma orientSegment_wf {a b : Point} (hax : a.x = b.x ∨ a.y = b.y) (hne : a ≠ b) :
    (orientSegment a b).Wf := by
  unfold orientSegment
  by_cases h1 : a.x = b.x
  · have hy : a.y ≠ b.y := fun hy =>
      hne (by cases a; cases b; simp_all)
    rw [if_pos h1]
    by_cases h2 : a.y ≤ b.y
    · rw [if_pos h2]
      exact ⟨h1, by simp only [varCoord]; omega⟩
    · rw [if_neg h2]
      exact ⟨h1.symm, by simp only [varCoord]; omega⟩
  · have hyy : a.y = b.y := hax.resolve_left h1
    rw [if_neg h1]
    by_cases h2 : a.x ≤ b.x
    · rw [if_pos h2]
      exact ⟨hyy, by simp only [varCoord]; omega⟩
    · rw [if_neg h2]
      exact ⟨hyy.symm, by simp only [varCoord]; omega⟩

lemma orientSegment_id {s : NSeg} (h : s.Wf) : orientSegment s.a s.b = s := by
  rcases s with ⟨a, b, ax⟩
  obtain ⟨hc, hv⟩ := h
  cases ax
  · simp only [constCoord] at hc
    simp only [varCoord] at hv
    unfold orientSegment
    rw [if_neg (show ¬(a.x = b.x) by omega), if_pos (le_of_lt hv)]
  · simp only [constCoord] at hc
    simp only [varCoord] at hv
    unfold orientSegment
    rw [if_pos hc, if_pos (le_of_lt hv)]

lemma NSeg.Wf.ne {s : NSeg} (h : s.Wf) : s.a ≠ s.b := by
  intro hc
  have := h.2
  rw [hc] at this
  omega

lemma mem_insertPt {js : List Point} {p q : Point} :
    q ∈ insertPt js p ↔ q ∈ js ∨ q = p := by
  unfold insertPt
  split
  · rename_i h
    exact ⟨Or.inl, fun hq => hq.elim id (fun hqp => hqp ▸ h)⟩
  · simp

lemma nodup_insertPt {js : List Point} (h : js.Nodup) (p : Point) :
    (insertPt js p).Nodup := by
  unfold insertPt
  split
  · exact h
  · rename_i hp
    simp [List.nodup_append, h, hp]

lemma mem_foldl_insertPt (l : List Point) : ∀ (js : List Point) (q : Point),
    q ∈ l.foldl insertPt js ↔ q ∈ js ∨ q ∈ l := by
  induction l with
  | nil => simp
  | cons p l ih =>
    intro js q
    rw [List.foldl_cons, ih, mem_insertPt]
    simp
    tauto

lemma nodup_foldl_insertPt (l : List Point) : ∀ (js : List Point), js.Nodup →
    (l.foldl insertPt js).Nodup := by
  induction l with
  | nil => exact fun _ h => h
  | cons p l ih =>
    intro js h
    exact ih _ (nodup_insertPt h p)

lemma mem_uniquePoints {l : List Point} {q : Point} :
    q ∈ uniquePoints l ↔ q ∈ l := by
  unfold uniquePoints
  rw [mem_foldl_insertPt]
  simp

lemma nodup_uniquePoints (l : List Point) : (uniquePoints l).Nodup :=
  nodup_foldl_insertPt l [] (by simp)

lemma perm_insertSorted (key : α → Int) (x : α) (l : List α) :
    List.Perm (insertSorted key x l) (x :: l) := by
  induction l with
  | nil => exact List.Perm.refl _
  | cons y ys ih =>
    unfold insertSorted
    split
    · exact (ih.cons y).trans (List.Perm.swap x y ys)
    · exact List.Perm.refl _

lemma pairwise_insertSorted (key : α → Int) (x : α) (l : List α)
    (h : List.Pairwise (fun a b => key a ≤ key b) l) :
    List.Pairwise (fun a b => key a ≤ key b) (insertSorted key x l) := by
  induction l with
  | nil => simp [insertSorted]
  | cons y ys ih =>
    rw [List.pairwise_cons] at h
    unfold insertSorted
    split
    · rename_i hyx
      rw [List.pairwise_cons]
      refine ⟨fun z hz => ?_, ih h.2⟩
      rcases List.mem_cons.mp ((perm_insertSorted key x ys).mem_iff.mp hz) with rfl | hz
      · exact hyx
      · exact h.1 z hz
    · rename_i hyx
      rw [List.pairwise_cons]
      refine ⟨fun z hz => ?_, List.pairwise_cons.mpr h⟩
      rcases List.mem_cons.mp hz with rfl | hz
      · omega
      · have := h.1 z hz
        omega

lemma sortByKey_perm (key : α → Int) (l : List α) : List.Perm (sortByKey key l) l := by
  unfold sortByKey
  suffices h : ∀ acc : List α,
      List.Perm (l.foldl (fun acc x => insertSorted key x acc) acc) (acc ++ l) by
    simpa using h []
  induction l with
  | nil => simp
  | cons x xs ih =>
    intro acc
    rw [List.foldl_cons]
    refine (ih (insertSorted key x acc)).trans ?_
    refine (((perm_insertSorted key x acc).append_right xs).trans ?_)
    exact (List.perm_middle).symm

lemma sortByKey_pairwise (key : α → Int) (l : List α) :
    List.Pairwise (fun a b => key a ≤ key b) (sortByKey key l) := by
  unfold sortByKey
  suffices h : ∀ acc : List α, List.Pairwise (fun a b => key a ≤ key b) acc →
      List.Pairwise (fun a b => key a ≤ key b)
        (l.foldl (fun acc x => insertSorted key x acc) acc) by
    exact h [] (by simp)
  induction l with
  | nil => exact fun _ h => h
  | cons x xs ih =>
    intro acc hacc
    exact ih _ (pairwise_insertSorted key x acc hacc)

lemma eq_of_pairwise_lt_of_mem_iff (key : α → Int) :
    ∀ (l1 l2 : List α), List.Pairwise (fun a b => key a < key b) l1 →
      List.Pairwise (fun a b => key a < key b) l2 →
      (∀ x, x ∈ l1 ↔ x ∈ l2) → l1 = l2 := by
  intro l1
  induction l1 with
  | nil =>
    intro l2 _ _ hmem
    cases l2 with
    | nil => rfl
    | cons y ys => exact absurd ((hmem y).mpr (List.mem_cons_self y ys)) (by simp)
  | cons x xs ih =>
    intro l2 h1 h2 hmem
    cases l2 with
    | nil => exact absurd ((hmem x).mp (List.mem_cons_self x xs)) (by simp)
    | cons y ys =>
      have hxy : x = y := by
        have hx2 : x ∈ y :: ys := (hmem x).mp (List.mem_cons_self x xs)
        have hy1 : y ∈ x :: xs := (hmem y).mpr (List.mem_cons_self y ys)
        rcases List.mem_cons.mp hx2 with h | hx
        · exact h
        · rcases List.mem_cons.mp hy1 with h | hy
          · exact h.symm
          · have hk1 := (List.pairwise_cons.mp h2).1 x hx
            have hk2 := (List.pairwise_cons.mp h1).1 y hy
            omega
      subst hxy
      congr 1
      apply ih ys (List.pairwise_cons.mp h1).2 (List.pairwise_cons.mp h2).2
      intro z
      constructor
      · intro hz
        rcases List.mem_cons.mp ((hmem z).mp (List.mem_cons_of_mem x hz)) with rfl | h
        · have := (List.pairwise_cons.mp h1).1 z hz
          omega
        · exact h
      · intro hz
        rcases List.mem_cons.mp ((hmem z).mpr (List.mem_cons_of_mem x hz)) with rfl | h
        · have := (List.pairwise_cons.mp h2).1 z hz
          omega
        · exact h

/-! ## Sweep specification -/

lemma sweepRuns_spec (A : Axis) (k : Int) :
    ∀ (rest : List NSeg) (curA curB : Point),
      constCoord A curA = k → constCoord A curB = k →
      varCoord A curA < varCoord A curB →
      (∀ s ∈ rest, s.axis = A ∧ s.Wf ∧ constCoord A s.a = k) →
      List.Pairwise (fun s t => varCoord A s.a ≤ varCoord A t.a) rest →
      (∀ s ∈ rest, varCoord A curA ≤ varCoord A s.a) →
      (∀ r ∈ sweepRuns A curA curB rest,
          r.axis = A ∧ r.Wf ∧ constCoord A r.a = k) ∧
      List.Pairwise (fun r t => varCoord A r.b < varCoord A t.a)
        (sweepRuns A curA curB rest) ∧
      (∀ r ∈ sweepRuns A curA curB rest, varCoord A curA ≤ varCoord A r.a) ∧
      (∃ r ∈ sweepRuns A curA curB rest,
        varCoord A r.a ≤ varCoord A curA ∧ varCoord A curB ≤ varCoord A r.b) ∧
      (∀ s ∈ rest, ∃ r ∈ sweepRuns A curA curB rest,
        varCoord A r.a ≤ varCoord A s.a ∧ varCoord A s.b ≤ varCoord A r.b) := by
  intro rest
  induction rest with
  | nil =>
    intro curA curB hcA hcB hlt _ _ _
    have hne : ¬(curA = curB) := fun h => by rw [h] at hlt; omega
    rw [show sweepRuns A curA curB [] = [⟨curA, curB, A⟩] by simp [sweepRuns, hne]]
    refine ⟨?_, by simp, ?_, ?_, by simp⟩
    · intro r hr
      rw [List.mem_singleton] at hr
      subst hr
      exact ⟨rfl, ⟨hcA.trans hcB.symm, hlt⟩, hcA⟩
    · intro r hr
      rw [List.mem_singleton] at hr
      subst hr
      exact le_refl _
    · exact ⟨⟨curA, curB, A⟩, List.mem_singleton_self _, le_refl _, le_refl _⟩
  | cons s rest ih =>
    intro curA curB hcA hcB hlt hseg hsort hmin
    obtain ⟨hsA, hsWf, hsk⟩ := hseg s (List.mem_cons_self s rest)
    obtain ⟨hwc, hwv⟩ := hsWf
    rw [hsA] at hwc hwv
    have hrest : ∀ t ∈ rest, t.axis = A ∧ t.Wf ∧ constCoord A t.a = k :=
      fun t ht => hseg t (List.mem_cons_of_mem s ht)
    have hsort' := (List.pairwise_cons.mp hsort).2
    have hheadle := (List.pairwise_cons.mp hsort).1
    have hminrest : ∀ t ∈ rest, varCoord A curA ≤ varCoord A t.a :=
      fun t ht => hmin t (List.mem_cons_of_mem s ht)
    have hmins : varCoord A curA ≤ varCoord A s.a := hmin s (List.mem_cons_self s rest)
    by_cases h1 : varCoord A s.a ≤ varCoord A curB
    · by_cases hext : varCoord A s.b > varCoord A curB
      · rw [show sweepRuns A curA curB (s :: rest) = sweepRuns A curA s.b rest by
          simp [sweepRuns, h1, hext]]
        have hcB' : constCoord A s.b = k := hwc ▸ hsk
        obtain ⟨c1, c2, c3, c4, c5⟩ := ih curA s.b hcA hcB' (by omega) hrest hsort' hminrest
        refine ⟨c1, c2, c3, ?_, ?_⟩
        · obtain ⟨r, hrmem, hr1, hr2⟩ := c4
          exact ⟨r, hrmem, hr1, by omega⟩
        · intro t ht
          rcases List.mem_cons.mp ht with rfl | ht
          · obtain ⟨r, hrmem, hr1, hr2⟩ := c4
            exact ⟨r, hrmem, by omega, by omega⟩
          · exact c5 t ht
      · rw [show sweepRuns A curA curB (s :: rest) = sweepRuns A curA curB rest by
          simp [sweepRuns, h1, hext]]
        obtain ⟨c1, c2, c3, c4, c5⟩ := ih curA curB hcA hcB hlt hrest hsort' hminrest
        refine ⟨c1, c2, c3, c4, ?_⟩
        · intro t ht
          rcases List.mem_cons.mp ht with rfl | ht
          · obtain ⟨r, hrmem, hr1, hr2⟩ := c4
            exact ⟨r, hrmem, by omega, by omega⟩
          · exact c5 t ht
    · by_cases h2 : varCoord A s.a = varCoord A curB
      · exact absurd (le_of_eq h2) h1
      · have h3 : varCoord A curB < varCoord A s.a := by omega
        have hne : ¬(curA = curB) := fun h => by rw [h] at hlt; omega
        rw [show sweepRuns A curA curB (s :: rest) =
            ⟨curA, curB, A⟩ :: sweepRuns A s.a s.b rest by
          simp [sweepRuns, h1, h2, hne]]
        have hcB' : constCoord A s.b = k := hwc ▸ hsk
        obtain ⟨c1, c2, c3, c4, c5⟩ := ih s.a s.b hsk hcB' hwv hrest hsort' hheadle
        refine ⟨?_, ?_, ?_, ?_, ?_⟩
        · intro r hr
          rcases List.mem_cons.mp hr with rfl | hr
          · exact ⟨rfl, ⟨hcA.trans hcB.symm, hlt⟩, hcA⟩
          · exact c1 r hr
        · rw [List.pairwise_cons]
          refine ⟨?_, c2⟩
          intro r hr
          have := c3 r hr
          show varCoord A curB < varCoord A r.a
          omega
        · intro r hr
          rcases List.mem_cons.mp hr with rfl | hr
          · exact le_refl _
          · have := c3 r hr
            omega
        · exact ⟨⟨curA, curB, A⟩, List.mem_cons_self _ _, le_refl _, le_refl _⟩
        · intro t ht
          rcases List.mem_cons.mp ht with rfl | ht
          · obtain ⟨r, hrmem, hr1, hr2⟩ := c4
            exact ⟨r, List.mem_cons_of_mem _ hrmem, hr1, hr2⟩
          · obtain ⟨r, hrmem, hr1, hr2⟩ := c5 t ht
            exact ⟨r, List.mem_cons_of_mem _ hrmem, hr1, hr2⟩

lemma sweepRuns_P (A : Axis) (P : Int → Int → Prop)
    (hP : ∀ a b c d, a ≤ c → c ≤ b → c ≤ d → P a b → P c d → P a (max b d)) :
    ∀ (rest : List NSeg) (curA curB : Point),
      P (varCoord A curA) (varCoord A curB) →
      (∀ s ∈ rest, P (varCoord A s.a) (varCoord A s.b)) →
      (∀ s ∈ rest, varCoord A s.a ≤ varCoord A s.b) →
      List.Pairwise (fun s t => varCoord A s.a ≤ varCoord A t.a) rest →
      (∀ s ∈ rest, varCoord A curA ≤ varCoord A s.a) →
      ∀ r ∈ sweepRuns A curA curB rest, P (varCoord A r.a) (varCoord A r.b) := by
  intro rest
  induction rest with
  | nil =>
    intro curA curB hcur _ _ _ _ r hr
    unfold sweepRuns at hr
    split at hr
    · cases hr
    · rw [List.mem_singleton] at hr
      subst hr
      exact hcur
  | cons s rest ih =>
    intro curA curB hcur hall hord hsort hmin r hr
    have halls := hall s (List.mem_cons_self s rest)
    have hords := hord s (List.mem_cons_self s rest)
    have hall' : ∀ t ∈ rest, P (varCoord A t.a) (varCoord A t.b) :=
      fun t ht => hall t (List.mem_cons_of_mem s ht)
    have hord' : ∀ t ∈ rest, varCoord A t.a ≤ varCoord A t.b :=
      fun t ht => hord t (List.mem_cons_of_mem s ht)
    have hsort' := (List.pairwise_cons.mp hsort).2
    have hheadle := (List.pairwise_cons.mp hsort).1
    have hminrest : ∀ t ∈ rest, varCoord A curA ≤ varCoord A t.a :=
      fun t ht => hmin t (List.mem_cons_of_mem s ht)
    have hmins : varCoord A curA ≤ varCoord A s.a := hmin s (List.mem_cons_self s rest)
    by_cases h1 : varCoord A s.a ≤ varCoord A curB
    · by_cases hext : varCoord A s.b > varCoord A curB
      · rw [show sweepRuns A curA curB (s :: rest) = sweepRuns A curA s.b rest by
          simp [sweepRuns, h1, hext]] at hr
        have hnew : P (varCoord A curA) (varCoord A s.b) := by
          have := hP _ _ _ _ hmins h1 hords hcur halls
          rwa [max_eq_right (by omega)] at this
        exact ih curA s.b hnew hall' hord' hsort' hminrest r hr
      · rw [show sweepRuns A curA curB (s :: rest) = sweepRuns A curA curB rest by
          simp [sweepRuns, h1, hext]] at hr
        exact ih curA curB hcur hall' hord' hsort' hminrest r hr
    · by_cases h2 : varCoord A s.a = varCoord A curB
      · exact absurd (le_of_eq h2) h1
      · rw [show sweepRuns A curA curB (s :: rest) =
            (if curA = curB then [] else [⟨curA, curB, A⟩]) ++
              sweepRuns A s.a s.b rest by
          simp [sweepRuns, h1, h2]] at hr
        rcases List.mem_append.mp hr with hr | hr
        · split at hr
          · cases hr
          · rw [List.mem_singleton] at hr
            subst hr
            exact hcur
        · exact ih s.a s.b halls hall' hord' hsort' hheadle r hr

/-- Pointwise form of the run-separation output: two overlapping-or-touching
runs on the same sweep output are equal. -/
lemma pairwise_sep_eq {l : List NSeg} {A : Axis}
    (hw : ∀ r ∈ l, r.axis = A ∧ r.Wf)
    (hsep : List.Pairwise (fun r t => varCoord A r.b < varCoord A t.a) l)
    {r t : NSeg} (hr : r ∈ l) (ht : t ∈ l)
    (ho1 : varCoord A r.a ≤ varCoord A t.b) (ho2 : varCoord A t.a ≤ varCoord A r.b) :
    r = t := by
  by_contra hne
  have hsym : List.Pairwise (fun r t =>
      varCoord A r.b < varCoord A t.a ∨ varCoord A t.b < varCoord A r.a) l :=
    hsep.imp Or.inl
  have := List.Pairwise.forall (fun a b h => h.symm.imp id id) hsym hr ht hne
  obtain ⟨_, _, hvr⟩ := hw r hr
  obtain ⟨_, _, hvt⟩ := hw t ht
  omega

/-! ## Merge-group specification -/

lemma mergeGroup_spec (A : Axis) (k : Int) (group : List RawSeg)
    (H : ∀ g ∈ group, ∃ s : NSeg, s.axis = A ∧ s.Wf ∧ constCoord A s.a = k ∧
      g = ⟨s.a, s.b⟩) :
    (∀ r ∈ mergeGroup A group, r.axis = A ∧ r.Wf ∧ constCoord A r.a = k) ∧
    List.Pairwise (fun r t => varCoord A r.b < varCoord A t.a) (mergeGroup A group) ∧
    (∀ s : NSeg, s.axis = A → s.Wf → (⟨s.a, s.b⟩ : RawSeg) ∈ group →
      ∃ r ∈ mergeGroup A group,
        varCoord A r.a ≤ varCoord A s.a ∧ varCoord A s.b ≤ varCoord A r.b) := by
  have hmapped : ∀ m ∈ group.map (fun g => orientSegment g.a g.b),
      m.axis = A ∧ m.Wf ∧ constCoord A m.a = k := by
    intro m hm
    obtain ⟨g, hg, rfl⟩ := List.mem_map.mp hm
    obtain ⟨s, hsA, hsWf, hsk, rfl⟩ := H g hg
    rw [show orientSegment (RawSeg.mk s.a s.b).a (RawSeg.mk s.a s.b).b = s from
      orientSegment_id hsWf]
    exact ⟨hsA, hsWf, hsk⟩
  have hperm := sortByKey_perm (fun s => varCoord A s.a)
    (group.map (fun g => orientSegment g.a g.b))
  have hpair := sortByKey_pairwise (fun s => varCoord A s.a)
    (group.map (fun g => orientSegment g.a g.b))
  have hsortedmem : ∀ m ∈ sortByKey (fun s => varCoord A s.a)
      (group.map (fun g => orientSegment g.a g.b)),
      m.axis = A ∧ m.Wf ∧ constCoord A m.a = k :=
    fun m hm => hmapped m (hperm.mem_iff.mp hm)
  unfold mergeGroup
  rcases hs : sortByKey (fun s => varCoord A s.a)
      (group.map (fun g => orientSegment g.a g.b)) with _ | ⟨s0, rest⟩ <;> rw [hs]
  · refine ⟨by simp, by simp, ?_⟩
    intro s _ _ hg
    have : (orientSegment s.a s.b) ∈ sortByKey (fun s => varCoord A s.a)
        (group.map (fun g => orientSegment g.a g.b)) := by
      exact hperm.mem_iff.mpr (List.mem_map.mpr ⟨⟨s.a, s.b⟩, hg, rfl⟩)
    rw [hs] at this
    cases this
  · obtain ⟨h0A, h0Wf, h0k⟩ := hsortedmem s0 (hs ▸ List.mem_cons_self s0 rest)
    obtain ⟨h0c, h0v⟩ := h0Wf
    rw [h0A] at h0c h0v
    have hrest : ∀ t ∈ rest, t.axis = A ∧ t.Wf ∧ constCoord A t.a = k :=
      fun t ht => hsortedmem t (hs ▸ List.mem_cons_of_mem s0 ht)
    have hpair' : List.Pairwise (fun s t => varCoord A s.a ≤ varCoord A t.a)
        (s0 :: rest) := hs ▸ hpair
    obtain ⟨c1, c2, c3, c4, c5⟩ := sweepRuns_spec A k rest s0.a s0.b h0k
      (h0c ▸ h0k) h0v hrest (List.pairwise_cons.mp hpair').2
      (List.pairwise_cons.mp hpair').1
    refine ⟨c1, c2, ?_⟩
    intro s hsA hsWf hg
    have hmem : s ∈ s0 :: rest := by
      rw [← hs]
      refine hperm.mem_iff.mpr (List.mem_map.mpr ⟨⟨s.a, s.b⟩, hg, ?_⟩)
      exact orientSegment_id hsWf
    rcases List.mem_cons.mp hmem with rfl | hmem
    · exact c4
    · exact c5 s hmem

/-! ## Partition specification -/

lemma inGroups_cons {k0 : Int} {l0 : List RawSeg} {gs : List (Int × List RawSeg)}
    {k : Int} {g : RawSeg} :
    inGroups ((k0, l0) :: gs) k g ↔ (k = k0 ∧ g ∈ l0) ∨ inGroups gs k g := by
  unfold inGroups
  constructor
  · rintro ⟨l, hl, hg⟩
    rcases List.mem_cons.mp hl with heq | hl
    · obtain ⟨hk, hll⟩ := Prod.mk.injEq .. ▸ heq
      exact Or.inl ⟨hk, hll ▸ hg⟩
    · exact Or.inr ⟨l, hl, hg⟩
  · rintro (⟨rfl, hg⟩ | ⟨l, hl, hg⟩)
    · exact ⟨l0, List.mem_cons_self _ _, hg⟩
    · exact ⟨l, List.mem_cons_of_mem _ hl, hg⟩

lemma inGroups_addToGroup {gs : List (Int × List RawSeg)} {k : Int} {s : RawSeg}
    {k' : Int} {g : RawSeg} :
    inGroups (addToGroup gs k s) k' g ↔ inGroups gs k' g ∨ (k' = k ∧ g = s) := by
  induction gs with
  | nil =>
    unfold addToGroup inGroups
    simp only [List.mem_singleton, Prod.mk.injEq, List.not_mem_nil, false_and,
      exists_const, false_or]
    constructor
    · rintro ⟨l, ⟨rfl, rfl⟩, hg⟩
      rw [List.mem_singleton] at hg
      exact ⟨rfl, hg⟩
    · rintro ⟨rfl, hg⟩
      exact ⟨[s], ⟨rfl, rfl⟩, by rw [hg]; exact List.mem_singleton_self s⟩
  | cons e gs ih =>
    obtain ⟨k0, l0⟩ := e
    unfold addToGroup
    by_cases hk : k0 = k
    · rw [if_pos hk]
      rw [inGroups_cons, inGroups_cons]
      subst hk
      simp only [List.mem_append, List.mem_singleton]
      tauto
    · rw [if_neg hk]
      rw [inGroups_cons, inGroups_cons, ih]
      constructor
      · rintro (⟨rfl, hg⟩ | (h | h))
        · exact Or.inl (Or.inl ⟨rfl, hg⟩)
        · exact Or.inl (Or.inr h)
        · exact Or.inr h
      · rintro ((⟨rfl, hg⟩ | h) | h)
        · exact Or.inl ⟨rfl, hg⟩
        · exact Or.inr (Or.inl h)
        · exact Or.inr (Or.inr h)

lemma mem_keysOf_addToGroup {gs : List (Int × List RawSeg)} {k : Int} {s : RawSeg}
    {k' : Int} : k' ∈ keysOf (addToGroup gs k s) ↔ k' ∈ keysOf gs ∨ k' = k := by
  induction gs with
  | nil => simp [addToGroup, keysOf]
  | cons e gs ih =>
    obtain ⟨k0, l0⟩ := e
    unfold addToGroup
    by_cases hk : k0 = k
    · rw [if_pos hk]
      subst hk
      simp only [keysOf, List.map_cons, List.mem_cons]
      tauto
    · rw [if_neg hk]
      simp only [keysOf, List.map_cons, List.mem_cons] at *
      rw [ih]
      tauto

lemma nodup_keysOf_addToGroup {gs : List (Int × List RawSeg)} {k : Int}
    {s : RawSeg} (h : (keysOf gs).Nodup) : (keysOf (addToGroup gs k s)).Nodup := by
  induction gs with
  | nil => simp [addToGroup, keysOf]
  | cons e gs ih =>
    obtain ⟨k0, l0⟩ := e
    simp only [keysOf, List.map_cons, List.nodup_cons] at h
    unfold addToGroup
    by_cases hk : k0 = k
    · rw [if_pos hk]
      simp only [keysOf, List.map_cons, List.nodup_cons]
      exact h
    · rw [if_neg hk]
      simp only [keysOf, List.map_cons, List.nodup_cons]
      refine ⟨?_, ih h.2⟩
      intro hc
      rcases mem_keysOf_addToGroup.mp hc with hc | hc
      · exact h.1 hc
      · exact hk hc

lemma entries_unique {gs : List (Int × List RawSeg)} (h : (keysOf gs).Nodup)
    {k : Int} {l1 l2 : List RawSeg} (h1 : (k, l1) ∈ gs) (h2 : (k, l2) ∈ gs) :
    l1 = l2 := by
  induction gs with
  | nil => cases h1
  | cons e gs ih =>
    obtain ⟨k0, l0⟩ := e
    simp only [keysOf, List.map_cons, List.nodup_cons] at h
    rcases List.mem_cons.mp h1 with he1 | h1' <;>
      rcases List.mem_cons.mp h2 with he2 | h2'
    · injection he1 with hk1 hl1
      injection he2 with hk2 hl2
      rw [hl1, hl2]
    · injection he1 with hk1 hl1
      refine absurd (List.mem_map.mpr ⟨(k, l2), h2', ?_⟩) h.1
      rw [← hk1]
    · injection he2 with hk2 hl2
      refine absurd (List.mem_map.mpr ⟨(k, l1), h1', ?_⟩) h.1
      rw [← hk2]
    · exact ih h.2 h1' h2'

lemma partitionGroups_spec (segs : List NSeg) :
    (∀ k g, inGroups (partitionGroups segs).1 k g ↔
      ∃ s ∈ segs, s.axis = Axis.h ∧ s.a.y = k ∧ g = ⟨s.a, s.b⟩) ∧
    (∀ k g, inGroups (partitionGroups segs).2 k g ↔
      ∃ s ∈ segs, s.axis = Axis.v ∧ s.a.x = k ∧ g = ⟨s.a, s.b⟩) ∧
    (keysOf (partitionGroups segs).1).Nodup ∧
    (keysOf (partitionGroups segs).2).Nodup := by
  have main : ∀ (l : List NSeg) (acc : List (Int × List RawSeg) × List (Int × List RawSeg)),
      (∀ k g, inGroups (l.foldl
          (fun (gv : List (Int × List RawSeg) × List (Int × List RawSeg)) s =>
            match s.axis with
            | .h => (addToGroup gv.1 s.a.y ⟨s.a, s.b⟩, gv.2)
            | .v => (gv.1, addToGroup gv.2 s.a.x ⟨s.a, s.b⟩)) acc).1 k g ↔
        inGroups acc.1 k g ∨ ∃ s ∈ l, s.axis = Axis.h ∧ s.a.y = k ∧ g = ⟨s.a, s.b⟩) ∧
      (∀ k g, inGroups (l.foldl
          (fun (gv : List (Int × List RawSeg) × List (Int × List RawSeg)) s =>
            match s.axis with
            | .h => (addToGroup gv.1 s.a.y ⟨s.a, s.b⟩, gv.2)
            | .v => (gv.1, addToGroup gv.2 s.a.x ⟨s.a, s.b⟩)) acc).2 k g ↔
        inGroups acc.2 k g ∨ ∃ s ∈ l, s.axis = Axis.v ∧ s.a.x = k ∧ g = ⟨s.a, s.b⟩) ∧
      ((keysOf acc.1).Nodup → (keysOf (l.foldl
          (fun (gv : List (Int × List RawSeg) × List (Int × List RawSeg)) s =>
            match s.axis with
            | .h => (addToGroup gv.1 s.a.y ⟨s.a, s.b⟩, gv.2)
            | .v => (gv.1, addToGroup gv.2 s.a.x ⟨s.a, s.b⟩)) acc).1).Nodup) ∧
      ((keysOf acc.2).Nodup → (keysOf (l.foldl
          (fun (gv : List (Int × List RawSeg) × List (Int × List RawSeg)) s =>
            match s.axis with
            | .h => (addToGroup gv.1 s.a.y ⟨s.a, s.b⟩, gv.2)
            | .v => (gv.1, addToGroup gv.2 s.a.x ⟨s.a, s.b⟩)) acc).2).Nodup) := by
    intro l
    induction l with
    | nil => intro acc; simp
    | cons s l ih =>
      intro acc
      rw [List.foldl_cons]
      rcases hax : s.axis with _ | _
      · obtain ⟨i1, i2, i3, i4⟩ := ih (addToGroup acc.1 s.a.y ⟨s.a, s.b⟩, acc.2)
        refine ⟨?_, ?_, ?_, ?_⟩
        · intro k g
          rw [i1 k g]
          show inGroups (addToGroup acc.1 s.a.y ⟨s.a, s.b⟩) k g ∨ _ ↔ _
          rw [inGroups_addToGroup]
          simp only [List.mem_cons]
          constructor
          · rintro ((h | ⟨rfl, rfl⟩) | ⟨t, ht, h⟩)
            · exact Or.inl h
            · exact Or.inr ⟨s, Or.inl rfl, hax, rfl, rfl⟩
            · exact Or.inr ⟨t, Or.inr ht, h⟩
          · rintro (h | ⟨t, rfl | ht, h⟩)
            · exact Or.inl (Or.inl h)
            · exact Or.inl (Or.inr ⟨h.2.1.symm, h.2.2⟩)
            · exact Or.inr ⟨t, ht, h⟩
        · intro k g
          rw [i2 k g]
          constructor
          · rintro (h | ⟨t, ht, h⟩)
            · exact Or.inl h
            · exact Or.inr ⟨t, List.mem_cons_of_mem s ht, h⟩
          · rintro (h | ⟨t, ht, h⟩)
            · exact Or.inl h
            · rcases List.mem_cons.mp ht with rfl | ht
              · rw [hax] at h
                exact absurd h.1 (by simp)
              · exact Or.inr ⟨t, ht, h⟩
        · intro hnd
          exact i3 (nodup_keysOf_addToGroup hnd)
        · exact i4
      · obtain ⟨i1, i2, i3, i4⟩ := ih (acc.1, addToGroup acc.2 s.a.x ⟨s.a, s.b⟩)
        refine ⟨?_, ?_, ?_, ?_⟩
        · intro k g
          rw [i1 k g]
          constructor
          · rintro (h | ⟨t, ht, h⟩)
            · exact Or.inl h
            · exact Or.inr ⟨t, List.mem_cons_of_mem s ht, h⟩
          · rintro (h | ⟨t, ht, h⟩)
            · exact Or.inl h
            · rcases List.mem_cons.mp ht with rfl | ht
              · rw [hax] at h
                exact absurd h.1 (by simp)
              · exact Or.inr ⟨t, ht, h⟩
        · intro k g
          rw [i2 k g]
          show inGroups (addToGroup acc.2 s.a.x ⟨s.a, s.b⟩) k g ∨ _ ↔ _
          rw [inGroups_addToGroup]
          simp only [List.mem_cons]
          constructor
          · rintro ((h | ⟨rfl, rfl⟩) | ⟨t, ht, h⟩)
            · exact Or.inl h
            · exact Or.inr ⟨s, Or.inl rfl, hax, rfl, rfl⟩
            · exact Or.inr ⟨t, Or.inr ht, h⟩
          · rintro (h | ⟨t, rfl | ht, h⟩)
            · exact Or.inl (Or.inl h)
            · exact Or.inl (Or.inr ⟨h.2.1.symm, h.2.2⟩)
            · exact Or.inr ⟨t, ht, h⟩
        · exact i3
        · intro hnd
          exact i4 (nodup_keysOf_addToGroup hnd)
  obtain ⟨m1, m2, m3, m4⟩ := main segs ([], [])
  refine ⟨?_, ?_, ?_, ?_⟩
  · intro k g
    rw [show partitionGroups segs = segs.foldl _ ([], []) from rfl, m1 k g]
    simp [inGroups]
  · intro k g
    rw [show partitionGroups segs = segs.foldl _ ([], []) from rfl, m2 k g]
    simp [inGroups]
  · exact m3 (by simp [keysOf])
  · exact m4 (by simp [keysOf])

lemma mergeGroup_P (A : Axis) (k : Int) (group : List RawSeg) (P : Int → Int → Prop)
    (hP : ∀ a b c d, a ≤ c → c ≤ b → c ≤ d → P a b → P c d → P a (max b d))
    (H : ∀ g ∈ group, ∃ s : NSeg, s.axis = A ∧ s.Wf ∧ constCoord A s.a = k ∧
      g = ⟨s.a, s.b⟩)
    (HP : ∀ s : NSeg, s.axis = A → s.Wf → (⟨s.a, s.b⟩ : RawSeg) ∈ group →
      P (varCoord A s.a) (varCoord A s.b)) :
    ∀ r ∈ mergeGroup A group, P (varCoord A r.a) (varCoord A r.b) := by
  have hmapped : ∀ m ∈ group.map (fun g => orientSegment g.a g.b),
      m.axis = A ∧ m.Wf ∧ constCoord A m.a = k ∧
        P (varCoord A m.a) (varCoord A m.b) ∧ (⟨m.a, m.b⟩ : RawSeg) ∈ group := by
    intro m hm
    obtain ⟨g, hg, rfl⟩ := List.mem_map.mp hm
    obtain ⟨s, hsA, hsWf, hsk, rfl⟩ := H g hg
    rw [show orientSegment (RawSeg.mk s.a s.b).a (RawSeg.mk s.a s.b).b = s from
      orientSegment_id hsWf]
    exact ⟨hsA, hsWf, hsk, HP s hsA hsWf hg, hg⟩
  have hperm := sortByKey_perm (fun s => varCoord A s.a)
    (group.map (fun g => orientSegment g.a g.b))
  have hpair := sortByKey_pairwise (fun s => varCoord A s.a)
    (group.map (fun g => orientSegment g.a g.b))
  have hsortedmem : ∀ m ∈ sortByKey (fun s => varCoord A s.a)
      (group.map (fun g => orientSegment g.a g.b)),
      m.axis = A ∧ m.Wf ∧ constCoord A m.a = k ∧
        P (varCoord A m.a) (varCoord A m.b) ∧ (⟨m.a, m.b⟩ : RawSeg) ∈ group :=
    fun m hm => hmapped m (hperm.mem_iff.mp hm)
  unfold mergeGroup
  rcases hs : sortByKey (fun s => varCoord A s.a)
      (group.map (fun g => orientSegment g.a g.b)) with _ | ⟨s0, rest⟩ <;> rw [hs]
  · intro r hr
    cases hr
  · obtain ⟨h0A, h0Wf, h0k, h0P, -⟩ := hsortedmem s0 (hs ▸ List.mem_cons_self s0 rest)
    have hrestall : ∀ t ∈ rest, t.axis = A ∧ t.Wf ∧ constCoord A t.a = k ∧
        P (varCoord A t.a) (varCoord A t.b) ∧ (⟨t.a, t.b⟩ : RawSeg) ∈ group :=
      fun t ht => hsortedmem t (hs ▸ List.mem_cons_of_mem s0 ht)
    have hpair' : List.Pairwise (fun s t => varCoord A s.a ≤ varCoord A t.a)
        (s0 :: rest) := hs ▸ hpair
    refine sweepRuns_P A P hP rest s0.a s0.b h0P
      (fun t ht => (hrestall t ht).2.2.2.1) ?_ (List.pairwise_cons.mp hpair').2
      (List.pairwise_cons.mp hpair').1
    intro t ht
    obtain ⟨htA, htWf, -⟩ := hrestall t ht
    obtain ⟨-, hv⟩ := htWf
    rw [htA] at hv
    omega

lemma mem_mergeCollinearRuns {base : List NSeg} {r : NSeg} :
    r ∈ mergeCollinearRuns base ↔
      (∃ e ∈ (partitionGroups base).1, r ∈ mergeGroup Axis.h e.2) ∨
      (∃ e ∈ (partitionGroups base).2, r ∈ mergeGroup Axis.v e.2) := by
  unfold mergeCollinearRuns
  rw [List.mem_append, List.mem_flatMap, List.mem_flatMap]

lemma entry_H_h {base : List NSeg} (hwf : ∀ s ∈ base, s.Wf)
    {e : Int × List RawSeg} (he : e ∈ (partitionGroups base).1) :
    ∀ g ∈ e.2, ∃ s : NSeg, s.axis = Axis.h ∧ s.Wf ∧ constCoord Axis.h s.a = e.1 ∧
      g = ⟨s.a, s.b⟩ ∧ s ∈ base := by
  obtain ⟨k, l⟩ := e
  intro g hg
  have : inGroups (partitionGroups base).1 k g := ⟨l, he, hg⟩
  obtain ⟨s, hsmem, hsA, hsk, rfl⟩ := ((partitionGroups_spec base).1 k g).mp this
  exact ⟨s, hsA, hwf s hsmem, hsk, rfl, hsmem⟩

lemma entry_H_v {base : List NSeg} (hwf : ∀ s ∈ base, s.Wf)
    {e : Int × List RawSeg} (he : e ∈ (partitionGroups base).2) :
    ∀ g ∈ e.2, ∃ s : NSeg, s.axis = Axis.v ∧ s.Wf ∧ constCoord Axis.v s.a = e.1 ∧
      g = ⟨s.a, s.b⟩ ∧ s ∈ base := by
  obtain ⟨k, l⟩ := e
  intro g hg
  have : inGroups (partitionGroups base).2 k g := ⟨l, he, hg⟩
  obtain ⟨s, hsmem, hsA, hsk, rfl⟩ := ((partitionGroups_spec base).2.1 k g).mp this
  exact ⟨s, hsA, hwf s hsmem, hsk, rfl, hsmem⟩

lemma mergeCollinearRuns_spec (base : List NSeg) (hwf : ∀ s ∈ base, s.Wf) :
    (∀ r ∈ mergeCollinearRuns base, r.Wf) ∧
    (∀ r ∈ mergeCollinearRuns base, ∀ t ∈ mergeCollinearRuns base,
      r.axis = t.axis → constCoord r.axis r.a = constCoord t.axis t.a →
      varCoord r.axis r.a ≤ varCoord r.axis t.b →
      varCoord r.axis t.a ≤ varCoord r.axis r.b → r = t) ∧
    (∀ s ∈ base, ∃ r ∈ mergeCollinearRuns base, r.axis = s.axis ∧
      constCoord s.axis r.a = constCoord s.axis s.a ∧
      varCoord s.axis r.a ≤ varCoord s.axis s.a ∧
      varCoord s.axis s.b ≤ varCoord s.axis r.b) := by
  have specH : ∀ e ∈ (partitionGroups base).1,
      (∀ r ∈ mergeGroup Axis.h e.2, r.axis = Axis.h ∧ r.Wf ∧
        constCoord Axis.h r.a = e.1) ∧
      List.Pairwise (fun r t => varCoord Axis.h r.b < varCoord Axis.h t.a)
        (mergeGroup Axis.h e.2) ∧
      (∀ s : NSeg, s.axis = Axis.h → s.Wf → (⟨s.a, s.b⟩ : RawSeg) ∈ e.2 →
        ∃ r ∈ mergeGroup Axis.h e.2, varCoord Axis.h r.a ≤ varCoord Axis.h s.a ∧
          varCoord Axis.h s.b ≤ varCoord Axis.h r.b) := by
    intro e he
    exact mergeGroup_spec Axis.h e.1 e.2
      (fun g hg => (entry_H_h hwf he g hg).imp
        (fun s h => ⟨h.1, h.2.1, h.2.2.1, h.2.2.2.1⟩))
  have specV : ∀ e ∈ (partitionGroups base).2,
      (∀ r ∈ mergeGroup Axis.v e.2, r.axis = Axis.v ∧ r.Wf ∧
        constCoord Axis.v r.a = e.1) ∧
      List.Pairwise (fun r t => varCoord Axis.v r.b < varCoord Axis.v t.a)
        (mergeGroup Axis.v e.2) ∧
      (∀ s : NSeg, s.axis = Axis.v → s.Wf → (⟨s.a, s.b⟩ : RawSeg) ∈ e.2 →
        ∃ r ∈ mergeGroup Axis.v e.2, varCoord Axis.v r.a ≤ varCoord Axis.v s.a ∧
          varCoord Axis.v s.b ≤ varCoord Axis.v r.b) := by
    intro e he
    exact mergeGroup_spec Axis.v e.1 e.2
      (fun g hg => (entry_H_v hwf he g hg).imp
        (fun s h => ⟨h.1, h.2.1, h.2.2.1, h.2.2.2.1⟩))
  refine ⟨?_, ?_, ?_⟩
  · intro r hr
    rcases mem_mergeCollinearRuns.mp hr with ⟨e, he, hre⟩ | ⟨e, he, hre⟩
    · exact ((specH e he).1 r hre).2.1
    · exact ((specV e he).1 r hre).2.1
  · intro r hr t ht haxis hconst ho1 ho2
    rcases mem_mergeCollinearRuns.mp hr with ⟨e1, he1, hre⟩ | ⟨e1, he1, hre⟩ <;>
      rcases mem_mergeCollinearRuns.mp ht with ⟨e2, he2, hte⟩ | ⟨e2, he2, hte⟩
    · obtain ⟨k1, l1⟩ := e1
      obtain ⟨k2, l2⟩ := e2
      obtain ⟨hrA, hrWf, hrk⟩ := (specH (k1, l1) he1).1 r hre
      obtain ⟨htA, htWf, htk⟩ := (specH (k2, l2) he2).1 t hte
      have hkeq : k1 = k2 := by
        have hx1 : constCoord Axis.h r.a = k1 := hrk
        have hx2 : constCoord Axis.h t.a = k2 := htk
        rw [hrA] at hconst
        rw [htA] at hconst
        omega
      have hentry : l1 = l2 :=
        entries_unique (partitionGroups_spec base).2.2.1 he1 (hkeq ▸ he2)
      rw [hrA] at ho1 ho2
      exact pairwise_sep_eq (fun x hx => ⟨((specH (k1, l1) he1).1 x hx).1,
          ((specH (k1, l1) he1).1 x hx).2.1⟩)
        (specH (k1, l1) he1).2.1 hre (hentry ▸ hte) ho1 ho2
    · obtain ⟨hrA, -, -⟩ := (specH e1 he1).1 r hre
      obtain ⟨htA, -, -⟩ := (specV e2 he2).1 t hte
      rw [hrA, htA] at haxis
      cases haxis
    · obtain ⟨hrA, -, -⟩ := (specV e1 he1).1 r hre
      obtain ⟨htA, -, -⟩ := (specH e2 he2).1 t hte
      rw [hrA, htA] at haxis
      cases haxis
    · obtain ⟨k1, l1⟩ := e1
      obtain ⟨k2, l2⟩ := e2
      obtain ⟨hrA, hrWf, hrk⟩ := (specV (k1, l1) he1).1 r hre
      obtain ⟨htA, htWf, htk⟩ := (specV (k2, l2) he2).1 t hte
      have hkeq : k1 = k2 := by
        have hx1 : constCoord Axis.v r.a = k1 := hrk
        have hx2 : constCoord Axis.v t.a = k2 := htk
        rw [hrA] at hconst
        rw [htA] at hconst
        omega
      have hentry : l1 = l2 :=
        entries_unique (partitionGroups_spec base).2.2.2 he1 (hkeq ▸ he2)
      rw [hrA] at ho1 ho2
      exact pairwise_sep_eq (fun x hx => ⟨((specV (k1, l1) he1).1 x hx).1,
          ((specV (k1, l1) he1).1 x hx).2.1⟩)
        (specV (k1, l1) he1).2.1 hre (hentry ▸ hte) ho1 ho2
  · intro s hs
    cases hax : s.axis
    · have : inGroups (partitionGroups base).1 s.a.y ⟨s.a, s.b⟩ :=
        ((partitionGroups_spec base).1 s.a.y ⟨s.a, s.b⟩).mpr ⟨s, hs, hax, rfl, rfl⟩
      obtain ⟨l, hel, hgl⟩ := this
      obtain ⟨r, hrl, hr1, hr2⟩ := (specH (s.a.y, l) hel).2.2 s hax (hwf s hs) hgl
      refine ⟨r, mem_mergeCollinearRuns.mpr (Or.inl ⟨(s.a.y, l), hel, hrl⟩),
        ((specH (s.a.y, l) hel).1 r hrl).1,
        ((specH (s.a.y, l) hel).1 r hrl).2.2, hr1, hr2⟩
    · have : inGroups (partitionGroups base).2 s.a.x ⟨s.a, s.b⟩ :=
        ((partitionGroups_spec base).2.1 s.a.x ⟨s.a, s.b⟩).mpr ⟨s, hs, hax, rfl, rfl⟩
      obtain ⟨l, hel, hgl⟩ := this
      obtain ⟨r, hrl, hr1, hr2⟩ := (specV (s.a.x, l) hel).2.2 s hax (hwf s hs) hgl
      refine ⟨r, mem_mergeCollinearRuns.mpr (Or.inr ⟨(s.a.x, l), hel, hrl⟩),
        ((specV (s.a.x, l) hel).1 r hrl).1,
        ((specV (s.a.x, l) hel).1 r hrl).2.2, hr1, hr2⟩

lemma mergeCollinearRuns_sub_family (base F : List NSeg)
    (hwf : ∀ s ∈ base, s.Wf)
    (hFsep : ∀ f ∈ F, ∀ f' ∈ F, f.axis = f'.axis →
      constCoord f.axis f.a = constCoord f'.axis f'.a →
      varCoord f.axis f.a ≤ varCoord f.axis f'.b →
      varCoord f.axis f'.a ≤ varCoord f.axis f.b → f = f')
    (hcover : ∀ s ∈ base, ∃ f ∈ F, f.axis = s.axis ∧
      constCoord s.axis f.a = constCoord s.axis s.a ∧
      varCoord s.axis f.a ≤ varCoord s.axis s.a ∧
      varCoord s.axis s.b ≤ varCoord s.axis f.b) :
    ∀ r ∈ mergeCollinearRuns base, ∃ f ∈ F, f.axis = r.axis ∧
      constCoord r.axis f.a = constCoord r.axis r.a ∧
      varCoord r.axis f.a ≤ varCoord r.axis r.a ∧
      varCoord r.axis r.b ≤ varCoord r.axis f.b := by
  have hP : ∀ (A : Axis) (k : Int), ∀ a b c d : Int, a ≤ c → c ≤ b → c ≤ d →
      (∃ f ∈ F, f.axis = A ∧ constCoord A f.a = k ∧
        varCoord A f.a ≤ a ∧ b ≤ varCoord A f.b) →
      (∃ f ∈ F, f.axis = A ∧ constCoord A f.a = k ∧
        varCoord A f.a ≤ c ∧ d ≤ varCoord A f.b) →
      ∃ f ∈ F, f.axis = A ∧ constCoord A f.a = k ∧
        varCoord A f.a ≤ a ∧ max b d ≤ varCoord A f.b := by
    rintro A k a b c d hac hcb hcd ⟨f, hf, hfA, hfk, hf1, hf2⟩
      ⟨f', hf', hfA', hfk', hf1', hf2'⟩
    have heq : f = f' := by
      apply hFsep f hf f' hf'
      · rw [hfA, hfA']
      · rw [hfA, hfA']
        omega
      · rw [hfA]
        omega
      · rw [hfA]
        omega
    refine ⟨f, hf, hfA, hfk, hf1, ?_⟩
    have hx : d ≤ varCoord A f.b := by rw [heq]; exact hf2'
    omega
  have HPside : ∀ (A : Axis) (k : Int) (l : List RawSeg),
      (∀ g ∈ l, ∃ s : NSeg, s.axis = A ∧ s.Wf ∧ constCoord A s.a = k ∧
        g = ⟨s.a, s.b⟩ ∧ s ∈ base) →
      ∀ s : NSeg, s.axis = A → s.Wf → (⟨s.a, s.b⟩ : RawSeg) ∈ l →
        ∃ f ∈ F, f.axis = A ∧ constCoord A f.a = k ∧
          varCoord A f.a ≤ varCoord A s.a ∧ varCoord A s.b ≤ varCoord A f.b := by
    intro A k l Hgroup s hsA hsWf hmem
    obtain ⟨s', hs'A, hs'Wf, hs'k, hgeq, hs'base⟩ := Hgroup ⟨s.a, s.b⟩ hmem
    injection hgeq with ha hb
    obtain ⟨f, hf, hfA, hfk, hf1, hf2⟩ := hcover s' hs'base
    rw [hs'A] at hfA hfk hf1 hf2
    refine ⟨f, hf, hfA, by omega, ?_, ?_⟩
    · rw [ha]
      exact hf1
    · rw [hb]
      exact hf2
  intro r hr
  rcases mem_mergeCollinearRuns.mp hr with ⟨⟨k, l⟩, he, hre⟩ | ⟨⟨k, l⟩, he, hre⟩
  · have Hgroup := fun g hg => entry_H_h hwf he g hg
    have Hgroup' : ∀ g ∈ l, ∃ s : NSeg, s.axis = Axis.h ∧ s.Wf ∧
        constCoord Axis.h s.a = k ∧ g = ⟨s.a, s.b⟩ :=
      fun g hg => (Hgroup g hg).imp (fun s h => ⟨h.1, h.2.1, h.2.2.1, h.2.2.2.1⟩)
    have spec := mergeGroup_spec Axis.h k l Hgroup'
    obtain ⟨hrA, hrWf, hrk⟩ := spec.1 r hre
    have hPr := mergeGroup_P Axis.h k l
      (fun a b => ∃ f ∈ F, f.axis = Axis.h ∧ constCoord Axis.h f.a = k ∧
        varCoord Axis.h f.a ≤ a ∧ b ≤ varCoord Axis.h f.b)
      (hP Axis.h k) Hgroup' (HPside Axis.h k l Hgroup) r hre
    obtain ⟨f, hf, hfA, hfk, hv1, hv2⟩ := hPr
    rw [hrA]
    exact ⟨f, hf, hfA, by omega, hv1, hv2⟩
  · have Hgroup := fun g hg => entry_H_v hwf he g hg
    have Hgroup' : ∀ g ∈ l, ∃ s : NSeg, s.axis = Axis.v ∧ s.Wf ∧
        constCoord Axis.v s.a = k ∧ g = ⟨s.a, s.b⟩ :=
      fun g hg => (Hgroup g hg).imp (fun s h => ⟨h.1, h.2.1, h.2.2.1, h.2.2.2.1⟩)
    have spec := mergeGroup_spec Axis.v k l Hgroup'
    obtain ⟨hrA, hrWf, hrk⟩ := spec.1 r hre
    have hPr := mergeGroup_P Axis.v k l
      (fun a b => ∃ f ∈ F, f.axis = Axis.v ∧ constCoord Axis.v f.a = k ∧
        varCoord Axis.v f.a ≤ a ∧ b ≤ varCoord Axis.v f.b)
      (hP Axis.v k) Hgroup' (HPside Axis.v k l Hgroup) r hre
    obtain ⟨f, hf, hfA, hfk, hv1, hv2⟩ := hPr
    rw [hrA]
    exact ⟨f, hf, hfA, by omega, hv1, hv2⟩

/-! ## Junction-set membership -/

lemma mem_foldl_insert_like {β} (step : List Point → β → List Point)
    (R : β → Point → Prop)
    (hstep : ∀ js x q, q ∈ step js x ↔ q ∈ js ∨ R x q) (l : List β) :
    ∀ js q, q ∈ l.foldl step js ↔ q ∈ js ∨ ∃ x ∈ l, R x q := by
  induction l with
  | nil => simp
  | cons x l ih =>
    intro js q
    rw [List.foldl_cons, ih, hstep]
    simp only [List.mem_cons]
    constructor
    · rintro ((h | h) | ⟨y, hy, h⟩)
      · exact Or.inl h
      · exact Or.inr ⟨x, Or.inl rfl, h⟩
      · exact Or.inr ⟨y, Or.inr hy, h⟩
    · rintro (h | ⟨y, rfl | hy, h⟩)
      · exact Or.inl (Or.inl h)
      · exact Or.inl (Or.inr h)
      · exact Or.inr ⟨y, hy, h⟩

lemma mem_runEndpoints {runs : List NSeg} {p : Point} :
    p ∈ runEndpoints runs ↔ ∃ r ∈ runs, p = r.a ∨ p = r.b := by
  unfold runEndpoints
  rw [mem_foldl_insert_like (fun js r => insertPt (insertPt js r.a) r.b)
    (fun r q => q = r.a ∨ q = r.b)
    (fun js x q => by rw [mem_insertPt, mem_insertPt]; tauto) runs]
  simp

lemma mem_crossJunctions {runs : List NSeg} {js : List Point} {p : Point} :
    p ∈ crossJunctions runs js ↔ p ∈ js ∨
      ∃ v ∈ runs, ∃ h ∈ runs, v.axis = Axis.v ∧ h.axis = Axis.h ∧
        v.a.x ≥ h.a.x ∧ v.a.x ≤ h.b.x ∧ h.a.y ≥ v.a.y ∧ h.a.y ≤ v.b.y ∧
        p = ⟨v.a.x, h.a.y⟩ := by
  have inner : ∀ (v : NSeg) (js1 : List Point) (q : Point),
      q ∈ (runs.filter (fun r => r.axis == Axis.h)).foldl
        (fun js2 h =>
          if v.a.x ≥ h.a.x ∧ v.a.x ≤ h.b.x ∧ h.a.y ≥ v.a.y ∧ h.a.y ≤ v.b.y then
            insertPt js2 ⟨v.a.x, h.a.y⟩
          else js2) js1 ↔
      q ∈ js1 ∨ ∃ h ∈ runs.filter (fun r => r.axis == Axis.h),
        (v.a.x ≥ h.a.x ∧ v.a.x ≤ h.b.x ∧ h.a.y ≥ v.a.y ∧ h.a.y ≤ v.b.y) ∧
          q = ⟨v.a.x, h.a.y⟩ := by
    intro v js1 q
    refine mem_foldl_insert_like _
      (fun (h : NSeg) (q' : Point) =>
        (v.a.x ≥ h.a.x ∧ v.a.x ≤ h.b.x ∧ h.a.y ≥ v.a.y ∧ h.a.y ≤ v.b.y) ∧
        q' = ⟨v.a.x, h.a.y⟩) ?_ _ js1 q
    intro js2 h q'
    split
    · rename_i hc
      rw [mem_insertPt]
      exact ⟨fun hq => hq.imp id (fun hh => ⟨hc, hh⟩), fun hq => hq.imp id And.right⟩
    · rename_i hc
      exact ⟨Or.inl, fun hq => hq.elim id (fun hh => absurd hh.1 hc)⟩
  unfold crossJunctions
  rw [mem_foldl_insert_like _
    (fun v q => ∃ h ∈ runs.filter (fun r => r.axis == Axis.h),
      (v.a.x ≥ h.a.x ∧ v.a.x ≤ h.b.x ∧ h.a.y ≥ v.a.y ∧ h.a.y ≤ v.b.y) ∧
        q = ⟨v.a.x, h.a.y⟩)
    (fun js1 v q => inner v js1 q) (runs.filter (fun r => r.axis == Axis.v))]
  constructor
  · rintro (h | ⟨v, hvmem, h', hhmem, hcond, rfl⟩)
    · exact Or.inl h
    · obtain ⟨hv1, hv2⟩ := List.mem_filter.mp hvmem
      obtain ⟨hh1, hh2⟩ := List.mem_filter.mp hhmem
      exact Or.inr ⟨v, hv1, h', hh1, beq_iff_eq.mp hv2, beq_iff_eq.mp hh2,
        hcond.1, hcond.2.1, hcond.2.2.1, hcond.2.2.2, rfl⟩
  · rintro (h | ⟨v, hvmem, h', hhmem, hvax, hhax, c1, c2, c3, c4, rfl⟩)
    · exact Or.inl h
    · refine Or.inr ⟨v, List.mem_filter.mpr ⟨hvmem, beq_iff_eq.mpr hvax⟩, h',
        List.mem_filter.mpr ⟨hhmem, beq_iff_eq.mpr hhax⟩, ⟨c1, c2, c3, c4⟩, rfl⟩

lemma mem_containmentPass {runs : List NSeg} {js : List Point} {p : Point} :
    p ∈ containmentPass runs js ↔ p ∈ js := by
  have inner : ∀ (r : NSeg) (js1 : List Point) (q : Point),
      q ∈ js.foldl
        (fun js2 p' => if pointOnSegment p' r = true then insertPt js2 p' else js2)
        js1 ↔ q ∈ js1 ∨ ∃ p' ∈ js, pointOnSegment p' r = true ∧ q = p' := by
    intro r js1 q
    refine mem_foldl_insert_like _
      (fun (p' q' : Point) => pointOnSegment p' r = true ∧ q' = p') ?_ _ js1 q
    intro js2 p' q'
    split
    · rename_i hc
      rw [mem_insertPt]
      exact ⟨fun hq => hq.imp id (fun hh => ⟨hc, hh⟩), fun hq => hq.imp id And.right⟩
    · rename_i hc
      exact ⟨Or.inl, fun hq => hq.elim id (fun hh => absurd hh.1 hc)⟩
  unfold containmentPass
  rw [mem_foldl_insert_like _
    (fun r q => ∃ p' ∈ js, pointOnSegment p' r = true ∧ q = p')
    (fun js1 r q => inner r js1 q) runs]
  constructor
  · rintro (h | ⟨r, -, p', hp', -, rfl⟩)
    · exact h
    · exact hp'
  · exact Or.inl

lemma mem_junctionsOf {runs : List NSeg} {extra : List Point} {p : Point} :
    p ∈ junctionsOf runs extra ↔
      (∃ r ∈ runs, p = r.a ∨ p = r.b) ∨ p ∈ extra ∨
      ∃ v ∈ runs, ∃ h ∈ runs, v.axis = Axis.v ∧ h.axis = Axis.h ∧
        v.a.x ≥ h.a.x ∧ v.a.x ≤ h.b.x ∧ h.a.y ≥ v.a.y ∧ h.a.y ≤ v.b.y ∧
        p = ⟨v.a.x, h.a.y⟩ := by
  unfold junctionsOf
  rw [mem_containmentPass, mem_crossJunctions,
    mem_foldl_insert_like insertPt (fun x q => q = x)
      (fun js x q => mem_insertPt) extra, mem_runEndpoints]
  constructor
  · rintro ((h | h) | h)
    · exact Or.inl h
    · obtain ⟨x, hx, rfl⟩ := h
      exact Or.inr (Or.inl hx)
    · exact Or.inr (Or.inr h)
  · rintro (h | h | h)
    · exact Or.inl (Or.inl h)
    · exact Or.inl (Or.inr ⟨p, h, rfl⟩)
    · exact Or.inr h

/-! ## Consecutive pairs and run splitting -/

lemma pairsConsec_mem : ∀ {L : List Point} {pr : Point × Point},
    pr ∈ pairsConsec L → pr.1 ∈ L ∧ pr.2 ∈ L := by
  intro L
  induction L with
  | nil => intro pr h; cases h
  | cons a t ih =>
    intro pr h
    cases t with
    | nil => cases h
    | cons b rest =>
      rw [show pairsConsec (a :: b :: rest) = (a, b) :: pairsConsec (b :: rest)
        from rfl] at h
      rcases List.mem_cons.mp h with rfl | h
      · exact ⟨List.mem_cons_self _ _, List.mem_cons_of_mem _ (List.mem_cons_self _ _)⟩
      · obtain ⟨h1, h2⟩ := ih h
        exact ⟨List.mem_cons_of_mem _ h1, List.mem_cons_of_mem _ h2⟩

lemma pairsConsec_rel {R : Point → Point → Prop} : ∀ {L : List Point},
    List.Pairwise R L → ∀ pr ∈ pairsConsec L, R pr.1 pr.2 := by
  intro L
  induction L with
  | nil => intro _ pr h; cases h
  | cons a t ih =>
    intro hp pr h
    cases t with
    | nil => cases h
    | cons b rest =>
      rw [show pairsConsec (a :: b :: rest) = (a, b) :: pairsConsec (b :: rest)
        from rfl] at h
      rcases List.mem_cons.mp h with rfl | h
      · exact (List.pairwise_cons.mp hp).1 b (List.mem_cons_self _ _)
      · exact ih (List.pairwise_cons.mp hp).2 pr h

lemma pairsConsec_sep (key : Point → Int) : ∀ {L : List Point},
    List.Pairwise (fun p q => key p < key q) L →
    List.Pairwise (fun pr qr => key pr.2 ≤ key qr.1) (pairsConsec L) := by
  intro L
  induction L with
  | nil => intro _; exact List.Pairwise.nil
  | cons a t ih =>
    intro hp
    cases t with
    | nil => exact List.Pairwise.nil
    | cons b rest =>
      rw [show pairsConsec (a :: b :: rest) = (a, b) :: pairsConsec (b :: rest)
        from rfl]
      rw [List.pairwise_cons]
      refine ⟨?_, ih (List.pairwise_cons.mp hp).2⟩
      intro qr hqr
      show key b ≤ key qr.1
      have h1 := (pairsConsec_mem hqr).1
      have hpb := (List.pairwise_cons.mp hp).2
      rcases List.mem_cons.mp h1 with heq | hmem
      · rw [heq]
      · have := (List.pairwise_cons.mp hpb).1 qr.1 hmem
        omega

lemma pairsConsec_cover : ∀ {L : List Point}, 2 ≤ L.length →
    ∀ p ∈ L, ∃ pr ∈ pairsConsec L, pr.1 = p ∨ pr.2 = p := by
  intro L
  induction L with
  | nil => intro h; simp at h
  | cons a t ih =>
    intro hlen p hp
    cases t with
    | nil => simp at hlen
    | cons b rest =>
      rw [show pairsConsec (a :: b :: rest) = (a, b) :: pairsConsec (b :: rest)
        from rfl]
      rcases List.mem_cons.mp hp with rfl | hp
      · exact ⟨(p, b), List.mem_cons_self _ _, Or.inl rfl⟩
      · cases rest with
        | nil =>
          rw [List.mem_singleton] at hp
          subst hp
          exact ⟨(a, p), List.mem_cons_self _ _, Or.inr rfl⟩
        | cons c rest' =>
          obtain ⟨pr, hpr, hor⟩ := ih (by simp only [List.length_cons]; omega) p hp
          exact ⟨pr, List.mem_cons_of_mem _ hpr, hor⟩

lemma pairsConsec_chain (Q : Int → Int → Prop) (key : Point → Int)
    (hjoin : ∀ a b c, Q a b → Q b c → Q a c) :
    ∀ (M : List Point) (a b m : Point), (b :: M).getLast? = some m →
      (∀ pr ∈ pairsConsec (a :: b :: M), Q (key pr.1) (key pr.2)) →
      Q (key a) (key m) := by
  intro M
  induction M with
  | nil =>
    intro a b m hlast hp
    rw [List.getLast?_singleton] at hlast
    injection hlast with hlast
    subst hlast
    exact hp (a, b) (List.mem_cons_self _ _)
  | cons c M' ih =>
    intro a b m hlast hp
    rw [List.getLast?_cons_cons] at hlast
    have h1 : Q (key a) (key b) := hp (a, b) (List.mem_cons_self _ _)
    have h2 : Q (key b) (key m) := by
      refine ih b c m hlast ?_
      intro pr hpr
      exact hp pr (List.mem_cons_of_mem _ hpr)
    exact hjoin _ _ _ h1 h2

lemma pairwise_head_le {key : α → Int} : ∀ {L : List α} {a : α},
    List.Pairwise (fun p q => key p ≤ key q) (a :: L) →
    ∀ q ∈ a :: L, key a ≤ key q := by
  intro L a hp q hq
  rcases List.mem_cons.mp hq with rfl | hq
  · exact le_refl _
  · exact (List.pairwise_cons.mp hp).1 q hq

lemma pairwise_le_getLast {key : α → Int} : ∀ {L : List α},
    List.Pairwise (fun p q => key p ≤ key q) L →
    ∀ {m : α}, L.getLast? = some m → ∀ q ∈ L, key q ≤ key m := by
  intro L
  induction L with
  | nil => intro _ m h; cases h
  | cons a t ih =>
    intro hp m hlast q hq
    cases t with
    | nil =>
      rw [List.getLast?_singleton] at hlast
      injection hlast with hlast
      subst hlast
      rw [List.mem_singleton] at hq
      subst hq
      exact le_refl _
    | cons b rest =>
      rw [List.getLast?_cons_cons] at hlast
      rcases List.mem_cons.mp hq with rfl | hq
      · exact (List.pairwise_cons.mp hp).1 m (List.mem_of_mem_getLast? hlast)
      · exact ih (List.pairwise_cons.mp hp).2 hlast q hq

lemma filterMap_eq_map_of {α β} {f : α → Option β} {g : α → β} :
    ∀ {l : List α}, (∀ x ∈ l, f x = some (g x)) → l.filterMap f = l.map g := by
  intro l
  induction l with
  | nil => intro _; rfl
  | cons x xs ih =>
    intro h
    rw [List.filterMap_cons, h x (List.mem_cons_self _ _), List.map_cons,
      ih (fun y hy => h y (List.mem_cons_of_mem _ hy))]

lemma orientSegment_of_lt {A : Axis} {p q : Point}
    (hc : constCoord A p = constCoord A q) (hv : varCoord A p < varCoord A q) :
    orientSegment p q = ⟨p, q, A⟩ := by
  cases A
  · simp only [constCoord] at hc
    simp only [varCoord] at hv
    unfold orientSegment
    rw [if_neg (show ¬(p.x = q.x) by omega), if_pos (show p.x ≤ q.x by omega)]
  · simp only [constCoord] at hc
    simp only [varCoord] at hv
    unfold orientSegment
    rw [if_pos hc, if_pos (show p.y ≤ q.y by omega)]

lemma sortAlongAxis_eq (pts : List Point) (A : Axis) :
    sortAlongAxis pts A = sortByKey (fun p => varCoord A p) pts := by
  cases A <;> rfl

lemma cutsSorted_mem {junctions : List Point} {r : NSeg} {p : Point} :
    p ∈ cutsSorted junctions r ↔ p ∈ junctions ∧ pointOnSegment p r = true := by
  unfold cutsSorted
  rw [sortAlongAxis_eq, (sortByKey_perm _ _).mem_iff, mem_uniquePoints,
    List.mem_filter]

lemma cutsSorted_strict {junctions : List Point} {r : NSeg} (hWf : r.Wf) :
    List.Pairwise (fun p q => varCoord r.axis p < varCoord r.axis q)
      (cutsSorted junctions r) := by
  have hle : List.Pairwise (fun p q => varCoord r.axis p ≤ varCoord r.axis q)
      (cutsSorted junctions r) := by
    unfold cutsSorted
    rw [sortAlongAxis_eq]
    exact sortByKey_pairwise _ _
  have hnd : (cutsSorted junctions r).Nodup := by
    unfold cutsSorted
    rw [sortAlongAxis_eq]
    exact (sortByKey_perm _ _).nodup_iff.mpr
      (nodup_uniquePoints _)
  refine List.Pairwise.imp_of_mem ?_ (hle.and hnd)
  intro p q hp hq hpq
  have hop := (pointOnSegment_iff p r).mp (cutsSorted_mem.mp hp).2
  have hoq := (pointOnSegment_iff q r).mp (cutsSorted_mem.mp hq).2
  rcases lt_or_eq_of_le hpq.1 with h | h
  · exact h
  · exact absurd (eq_of_coords r.axis (hop.1.trans hoq.1.symm) h) hpq.2

lemma splitRun_eq_map {junctions : List Point} {r : NSeg} (hWf : r.Wf) :
    splitRun junctions r =
      (pairsConsec (cutsSorted junctions r)).map
        (fun pr => ⟨pr.1, pr.2, r.axis⟩) := by
  unfold splitRun
  apply filterMap_eq_map_of
  intro pr hpr
  have hlt := pairsConsec_rel (cutsSorted_strict hWf) pr hpr
  have hmem1 := (pairsConsec_mem hpr).1
  have hmem2 := (pairsConsec_mem hpr).2
  have hc1 := (pointOnSegment_iff pr.1 r).mp (cutsSorted_mem.mp hmem1).2
  have hc2 := (pointOnSegment_iff pr.2 r).mp (cutsSorted_mem.mp hmem2).2
  have hconst : constCoord r.axis pr.1 = constCoord r.axis pr.2 := by
    rw [hc1.1, hc2.1]
  have hne : ¬(pr.1 = pr.2) := fun h => by rw [h] at hlt; omega
  rw [if_neg hne, orientSegment_of_lt hconst hlt]

lemma cutsSorted_ends {junctions : List Point} {r : NSeg} (hWf : r.Wf)
    (hra : r.a ∈ junctions) (hrb : r.b ∈ junctions) :
    r.a ∈ cutsSorted junctions r ∧ r.b ∈ cutsSorted junctions r ∧
      2 ≤ (cutsSorted junctions r).length := by
  have h1 : r.a ∈ cutsSorted junctions r := by
    rw [cutsSorted_mem]
    refine ⟨hra, (pointOnSegment_iff r.a r).mpr ⟨rfl, le_refl _, le_of_lt hWf.2⟩⟩
  have h2 : r.b ∈ cutsSorted junctions r := by
    rw [cutsSorted_mem]
    refine ⟨hrb, (pointOnSegment_iff r.b r).mpr ⟨hWf.1.symm, le_of_lt hWf.2, le_refl _⟩⟩
  refine ⟨h1, h2, ?_⟩
  rcases hL : cutsSorted junctions r with _ | ⟨x, _ | ⟨y, t⟩⟩
  · rw [hL] at h1
    cases h1
  · rw [hL] at h1 h2
    rw [List.mem_singleton] at h1 h2
    exact absurd (h1.trans h2.symm) hWf.ne
  · simp only [List.length_cons]
    omega

lemma splitRun_spec {junctions : List Point} {r : NSeg} (hWf : r.Wf)
    (hra : r.a ∈ junctions) (hrb : r.b ∈ junctions) :
    (∀ s ∈ splitRun junctions r, s.Wf ∧ s.axis = r.axis ∧
      constCoord r.axis s.a = constCoord r.axis r.a ∧
      varCoord r.axis r.a ≤ varCoord r.axis s.a ∧
      varCoord r.axis s.b ≤ varCoord r.axis r.b) ∧
    List.Pairwise (fun s t => varCoord r.axis s.b ≤ varCoord r.axis t.a)
      (splitRun junctions r) ∧
    (∀ p ∈ junctions, pointOnSegment p r = true →
      ∃ s ∈ splitRun junctions r, s.a = p ∨ s.b = p) ∧
    (∀ Q : Int → Int → Prop, (∀ a b c, Q a b → Q b c → Q a c) →
      (∀ s ∈ splitRun junctions r, Q (varCoord r.axis s.a) (varCoord r.axis s.b)) →
      Q (varCoord r.axis r.a) (varCoord r.axis r.b)) := by
  obtain ⟨hmema, hmemb, hlen⟩ := cutsSorted_ends hWf hra hrb
  have hstrict := @cutsSorted_strict junctions r hWf
  have hle : List.Pairwise (fun p q => varCoord r.axis p ≤ varCoord r.axis q)
      (cutsSorted junctions r) := hstrict.imp le_of_lt
  rw [splitRun_eq_map hWf]
  have hbounds : ∀ p ∈ cutsSorted junctions r,
      constCoord r.axis p = constCoord r.axis r.a ∧
      varCoord r.axis r.a ≤ varCoord r.axis p ∧
      varCoord r.axis p ≤ varCoord r.axis r.b := by
    intro p hp
    exact (pointOnSegment_iff p r).mp (cutsSorted_mem.mp hp).2
  refine ⟨?_, ?_, ?_, ?_⟩
  · intro s hs
    obtain ⟨pr, hpr, rfl⟩ := List.mem_map.mp hs
    have hlt := pairsConsec_rel hstrict pr hpr
    have hb1 := hbounds pr.1 (pairsConsec_mem hpr).1
    have hb2 := hbounds pr.2 (pairsConsec_mem hpr).2
    exact ⟨⟨by show constCoord r.axis pr.1 = constCoord r.axis pr.2; omega, hlt⟩,
      rfl, hb1.1, hb1.2.1, hb2.2.2⟩
  · rw [List.pairwise_map]
    exact pairsConsec_sep (varCoord r.axis) hstrict
  · intro p hp hop
    have hpL : p ∈ cutsSorted junctions r := cutsSorted_mem.mpr ⟨hp, hop⟩
    obtain ⟨pr, hpr, hor⟩ := pairsConsec_cover hlen p hpL
    refine ⟨⟨pr.1, pr.2, r.axis⟩, List.mem_map.mpr ⟨pr, hpr, rfl⟩, ?_⟩
    exact hor
  · intro Q hjoin hQ
    rcases hL : cutsSorted junctions r with _ | ⟨a, _ | ⟨b, M⟩⟩
    · rw [hL] at hmema
      cases hmema
    · rw [hL] at hmema hmemb
      rw [List.mem_singleton] at hmema hmemb
      exact absurd (hmema.trans hmemb.symm) hWf.ne
    · rcases hm : (b :: M).getLast? with _ | m
      · rw [List.getLast?_eq_none_iff] at hm
        cases hm
      · have hchain := pairsConsec_chain Q (varCoord r.axis) hjoin M a b m hm ?_
        · have hha : varCoord r.axis a = varCoord r.axis r.a := by
            have h1 := (hbounds a (by rw [hL]; exact List.mem_cons_self _ _)).2.1
            have h2 := pairwise_head_le (hL ▸ hle) r.a (hL ▸ hmema)
            omega
          have hhm : varCoord r.axis m = varCoord r.axis r.b := by
            have hmmem : m ∈ cutsSorted junctions r := by
              rw [hL]
              exact List.mem_cons_of_mem _ (List.mem_of_mem_getLast? hm)
            have h1 := (hbounds m hmmem).2.2
            have h2 : varCoord r.axis r.b ≤ varCoord r.axis m := by
              have := pairwise_le_getLast (hL ▸ hle)
                (show (a :: b :: M).getLast? = some m by
                  rw [List.getLast?_cons_cons]; exact hm) r.b (hL ▸ hmemb)
              exact this
            omega
          rw [← hha, ← hhm]
          exact hchain
        · intro pr hpr
          exact hQ ⟨pr.1, pr.2, r.axis⟩
            (List.mem_map.mpr ⟨pr, by rw [hL]; exact hpr, rfl⟩)

lemma cutsSorted_ext {j1 j2 : List Point} {r : NSeg} (hWf : r.Wf)
    (h : ∀ p, pointOnSegment p r = true → (p ∈ j1 ↔ p ∈ j2)) :
    cutsSorted j1 r = cutsSorted j2 r := by
  refine eq_of_pairwise_lt_of_mem_iff (varCoord r.axis) _ _
    (cutsSorted_strict hWf) (cutsSorted_strict hWf) ?_
  intro p
  rw [cutsSorted_mem, cutsSorted_mem]
  constructor
  · rintro ⟨hp, hop⟩
    exact ⟨(h p hop).mp hp, hop⟩
  · rintro ⟨hp, hop⟩
    exact ⟨(h p hop).mpr hp, hop⟩

/-! ## Dedupe -/

lemma segmentKey_inj_wf {s t : NSeg} (hs : s.Wf) (ht : t.Wf)
    (h : segmentKey s.a s.b = segmentKey t.a t.b) : s = t := by
  rcases s with ⟨sa, sb, sax⟩
  rcases t with ⟨ta, tb, tax⟩
  unfold segmentKey at h
  cases sax <;> cases tax <;>
    simp only [NSeg.Wf, constCoord, varCoord] at hs ht <;>
    obtain ⟨hc1, hv1⟩ := hs <;> obtain ⟨hc2, hv2⟩ := ht
  · rw [if_neg (show ¬(sa.x = sb.x) by omega),
      if_neg (show ¬(ta.x = tb.x) by omega)] at h
    simp only [Prod.mk.injEq] at h
    obtain ⟨-, hy, hmin, hmax⟩ := h
    have e1 : sa.x = ta.x := by omega
    have e2 : sb.x = tb.x := by omega
    have e3 : sa.y = ta.y := hy
    have e4 : sb.y = tb.y := by omega
    cases sa; cases sb; cases ta; cases tb
    simp_all
  · rw [if_neg (show ¬(sa.x = sb.x) by omega), if_pos hc2] at h
    simp only [Prod.mk.injEq] at h
    exact absurd h.1 (by simp)
  · rw [if_pos hc1, if_neg (show ¬(ta.x = tb.x) by omega)] at h
    simp only [Prod.mk.injEq] at h
    exact absurd h.1 (by simp)
  · rw [if_pos hc1, if_pos hc2] at h
    simp only [Prod.mk.injEq] at h
    obtain ⟨-, hx, hmin, hmax⟩ := h
    have e1 : sa.y = ta.y := by omega
    have e2 : sb.y = tb.y := by omega
    have e3 : sa.x = ta.x := hx
    have e4 : sb.x = tb.x := by omega
    cases sa; cases sb; cases ta; cases tb
    simp_all

lemma upsertSeg_eq_of_wf {acc : List NSeg} {s : NSeg}
    (hacc : ∀ t ∈ acc, t.Wf) (hs : s.Wf) :
    upsertSeg acc s = if s ∈ acc then acc else acc ++ [s] := by
  unfold upsertSeg
  have hany : (acc.any (fun t => segmentKey t.a t.b == segmentKey s.a s.b)) = true ↔
      s ∈ acc := by
    rw [List.any_eq_true]
    constructor
    · rintro ⟨t, ht, hbeq⟩
      rw [beq_iff_eq] at hbeq
      rw [← segmentKey_inj_wf (hacc t ht) hs hbeq]
      exact ht
    · intro hmem
      exact ⟨s, hmem, beq_iff_eq.mpr rfl⟩
  by_cases hmem : s ∈ acc
  · rw [if_pos (hany.mpr hmem), if_pos hmem]
    rw [show acc.map (fun t => if segmentKey t.a t.b == segmentKey s.a s.b then s else t)
        = acc.map id from ?_, List.map_id]
    apply List.map_congr_left
    intro t ht
    split
    · rename_i hbeq
      rw [beq_iff_eq] at hbeq
      exact (segmentKey_inj_wf (hacc t ht) hs hbeq).symm
    · rfl
  · rw [if_neg (fun hc => hmem (hany.mp hc)), if_neg hmem]

lemma dedupeSegs_spec {l : List NSeg} (h : ∀ s ∈ l, s.Wf) :
    (∀ s, s ∈ dedupeSegs l ↔ s ∈ l) ∧
    List.Pairwise (fun s t => segmentKey s.a s.b ≠ segmentKey t.a t.b)
      (dedupeSegs l) := by
  have haux : ∀ (ll : List NSeg), (∀ s ∈ ll, s.Wf) → ∀ (acc : List NSeg),
      (∀ t ∈ acc, t.Wf) →
      List.Pairwise (fun s t => segmentKey s.a s.b ≠ segmentKey t.a t.b) acc →
      (∀ s, s ∈ ll.foldl upsertSeg acc ↔ s ∈ acc ∨ s ∈ ll) ∧
      List.Pairwise (fun s t => segmentKey s.a s.b ≠ segmentKey t.a t.b)
        (ll.foldl upsertSeg acc) := by
    intro ll
    induction ll with
    | nil =>
      intro _ acc hacc hpacc
      refine ⟨fun s => ?_, hpacc⟩
      simp
    | cons x xs ih =>
      intro hwf acc hacc hpacc
      rw [List.foldl_cons]
      have hx : x.Wf := hwf x (List.mem_cons_self _ _)
      have hwf' : ∀ s ∈ xs, s.Wf := fun s hs => hwf s (List.mem_cons_of_mem _ hs)
      rw [upsertSeg_eq_of_wf hacc hx]
      by_cases hmem : x ∈ acc
      · rw [if_pos hmem]
        obtain ⟨m1, m2⟩ := ih hwf' acc hacc hpacc
        refine ⟨fun s => ?_, m2⟩
        rw [m1 s]
        simp only [List.mem_cons]
        constructor
        · rintro (hs | hs)
          · exact Or.inl hs
          · exact Or.inr (Or.inr hs)
        · rintro (hs | rfl | hs)
          · exact Or.inl hs
          · exact Or.inl hmem
          · exact Or.inr hs
      · rw [if_neg hmem]
        have hacc' : ∀ t ∈ acc ++ [x], t.Wf := by
          intro t ht
          rcases List.mem_append.mp ht with ht | ht
          · exact hacc t ht
          · rw [List.mem_singleton] at ht
            rw [ht]
            exact hx
        have hpacc' : List.Pairwise
            (fun s t => segmentKey s.a s.b ≠ segmentKey t.a t.b) (acc ++ [x]) := by
          rw [List.pairwise_append]
          refine ⟨hpacc, by simp, ?_⟩
          intro t ht y hy
          rw [List.mem_singleton] at hy
          subst hy
          intro hkey
          exact hmem (by rw [← segmentKey_inj_wf (hacc t ht) hx hkey]; exact ht)
        obtain ⟨m1, m2⟩ := ih hwf' (acc ++ [x]) hacc' hpacc'
        refine ⟨fun s => ?_, m2⟩
        rw [m1 s]
        simp only [List.mem_append, List.mem_singleton, List.mem_cons]
        tauto
  have := haux l h [] (by simp) (by simp)
  refine ⟨fun s => ?_, this.2⟩
  rw [show dedupeSegs l = l.foldl upsertSeg [] from rfl, (this.1 s)]
  simp

/-! ## Core pipeline facts -/

lemma NSeg.WeakWf.wf {s : NSeg} (h : s.WeakWf) (hne : s.a ≠ s.b) : s.Wf :=
  ⟨h.1, lt_of_le_of_ne h.2 (fun hv => hne (eq_of_coords s.axis h.1 hv))⟩

lemma NSeg.Wf.weak {s : NSeg} (h : s.Wf) : s.WeakWf :=
  ⟨h.1, le_of_lt h.2⟩

lemma orientSegment_weakWf {a b : Point} (h : ¬(a.x ≠ b.x ∧ a.y ≠ b.y)) :
    (orientSegment a b).WeakWf := by
  unfold orientSegment
  by_cases h1 : a.x = b.x
  · rw [if_pos h1]
    by_cases h2 : a.y ≤ b.y
    · rw [if_pos h2]
      exact ⟨h1, h2⟩
    · rw [if_neg h2]
      exact ⟨h1.symm, by simp only [varCoord]; omega⟩
  · have hy : a.y = b.y := by tauto
    rw [if_neg h1]
    by_cases h2 : a.x ≤ b.x
    · rw [if_pos h2]
      exact ⟨hy, h2⟩
    · rw [if_neg h2]
      exact ⟨hy.symm, by simp only [varCoord]; omega⟩

lemma mapExcept_normalizeSegment_ok : ∀ {ws : List WireSegment} {base : List NSeg},
    mapExcept (fun w => normalizeSegment w.a w.b) ws = .ok base →
    base = ws.map (fun w => orientSegment w.a w.b) := by
  intro ws
  induction ws with
  | nil =>
    intro base h
    injection h with h
    rw [← h, List.map_nil]
  | cons w ws ih =>
    intro base h
    rw [mapExcept] at h
    rcases hn : normalizeSegment w.a w.b with e | b
    · rw [hn] at h
      cases h
    · rw [hn] at h
      rcases hm : mapExcept (fun w => normalizeSegment w.a w.b) ws with e | bs
      · rw [hm] at h
        cases h
      · rw [hm] at h
        injection h with h
        have hb : b = orientSegment w.a w.b := by
          unfold normalizeSegment at hn
          split at hn
          · cases hn
          · injection hn with hn
            exact hn.symm
        rw [← h, List.map_cons, hb, ih hm]

lemma mapExcept_ok_of_aligned {ws : List WireSegment}
    (h : ∀ w ∈ ws, ¬(w.a.x ≠ w.b.x ∧ w.a.y ≠ w.b.y)) :
    mapExcept (fun w => normalizeSegment w.a w.b) ws =
      .ok (ws.map (fun w => orientSegment w.a w.b)) := by
  induction ws with
  | nil => rfl
  | cons w ws ih =>
    rw [mapExcept]
    rw [normalizeSegment_ok w.a w.b (h w (List.mem_cons_self _ _)),
      ih (fun w' hw' => h w' (List.mem_cons_of_mem _ hw')), List.map_cons]

lemma mapExcept_normalizeSegment_weakWf {ws : List WireSegment} {base : List NSeg}
    (h : mapExcept (fun w => normalizeSegment w.a w.b) ws = .ok base) :
    ∀ s ∈ base, s.WeakWf := by
  intro s hs
  rw [mapExcept_normalizeSegment_ok h] at hs
  obtain ⟨w, hw, rfl⟩ := List.mem_map.mp hs
  by_cases hal : w.a.x ≠ w.b.x ∧ w.a.y ≠ w.b.y
  · exfalso
    have herr := (mapExcept_normalizeSegment_error_iff ws).mpr ⟨w, hw, hal⟩
    obtain ⟨e, he⟩ := herr
    rw [he] at h
    cases h
  · exact orientSegment_weakWf hal

lemma mem_mapIdx_geom : ∀ {l : List NSeg} (mk : Nat → Nat) {w : WireSegment},
    w ∈ l.mapIdx (fun i s => (⟨mk i, s.a, s.b⟩ : WireSegment)) →
    ∃ s ∈ l, w.a = s.a ∧ w.b = s.b := by
  intro l
  induction l with
  | nil =>
    intro mk w h
    rw [List.mapIdx_nil] at h
    cases h
  | cons x xs ih =>
    intro mk w h
    rw [List.mapIdx_cons] at h
    rcases List.mem_cons.mp h with rfl | h
    · exact ⟨x, List.mem_cons_self _ _, rfl, rfl⟩
    · obtain ⟨s, hs, h1, h2⟩ := ih (fun i => mk (i + 1)) h
      exact ⟨s, List.mem_cons_of_mem _ hs, h1, h2⟩

lemma mapIdx_geom_surj : ∀ {l : List NSeg} (mk : Nat → Nat) {s : NSeg}, s ∈ l →
    ∃ w ∈ l.mapIdx (fun i t => (⟨mk i, t.a, t.b⟩ : WireSegment)),
      w.a = s.a ∧ w.b = s.b := by
  intro l
  induction l with
  | nil =>
    intro mk s h
    cases h
  | cons x xs ih =>
    intro mk s h
    rw [List.mapIdx_cons]
    rcases List.mem_cons.mp h with rfl | h
    · exact ⟨⟨mk 0, s.a, s.b⟩, List.mem_cons_self _ _, rfl, rfl⟩
    · obtain ⟨w, hw, h1, h2⟩ := ih (fun i => mk (i + 1)) h
      exact ⟨w, List.mem_cons_of_mem _ hw, h1, h2⟩

lemma pairwise_mapIdx_geom {S : NSeg → NSeg → Prop} {R : WireSegment → WireSegment → Prop}
    (hRS : ∀ (v w : WireSegment) (s t : NSeg), v.a = s.a → v.b = s.b →
      w.a = t.a → w.b = t.b → S s t → R v w) :
    ∀ {l : List NSeg} (mk : Nat → Nat), List.Pairwise S l →
      List.Pairwise R (l.mapIdx (fun i s => (⟨mk i, s.a, s.b⟩ : WireSegment))) := by
  intro l
  induction l with
  | nil =>
    intro mk _
    rw [List.mapIdx_nil]
    exact List.Pairwise.nil
  | cons x xs ih =>
    intro mk hp
    rw [List.mapIdx_cons, List.pairwise_cons]
    obtain ⟨hhead, htail⟩ := List.pairwise_cons.mp hp
    refine ⟨?_, ih (fun i => mk (i + 1)) htail⟩
    intro w hw
    obtain ⟨t, ht, h1, h2⟩ := mem_mapIdx_geom (fun i => mk (i + 1)) hw
    exact hRS _ w x t rfl rfl h1 h2 (hhead t ht)

lemma filter_nondeg_eq {l : List NSeg} (h : ∀ s ∈ l, s.Wf) :
    l.filter (fun s => !(s.a == s.b)) = l := by
  rw [List.filter_eq_self]
  intro s hs
  simp only [Bool.not_eq_true', beq_eq_false_iff_ne]
  exact (h s hs).ne

lemma normalizeCore_eq (base0 : List NSeg) (extra : List Point) (mk : Nat → Nat) :
    normalizeCore base0 extra mk =
      ((coreDeduped base0 extra).filter (fun s => !(s.a == s.b))).mapIdx
        (fun i s => ⟨mk i, s.a, s.b⟩) := rfl

lemma core_facts (base0 : List NSeg) (extra : List Point)
    (hw : ∀ s ∈ base0, s.WeakWf) :
    (∀ s ∈ coreBase base0, s.Wf) ∧
    (∀ r ∈ coreRuns base0, r.Wf) ∧
    (∀ r ∈ coreRuns base0, ∀ t ∈ coreRuns base0, r.axis = t.axis →
      constCoord r.axis r.a = constCoord t.axis t.a →
      varCoord r.axis r.a ≤ varCoord r.axis t.b →
      varCoord r.axis t.a ≤ varCoord r.axis r.b → r = t) ∧
    (∀ r ∈ coreRuns base0,
      r.a ∈ coreJunctions base0 extra ∧ r.b ∈ coreJunctions base0 extra) ∧
    (∀ s ∈ corePieces base0 extra, s.Wf) ∧
    (∀ s ∈ corePieces base0 extra, ∃ r ∈ coreRuns base0, s.axis = r.axis ∧
      constCoord r.axis s.a = constCoord r.axis r.a ∧
      varCoord r.axis r.a ≤ varCoord r.axis s.a ∧
      varCoord r.axis s.b ≤ varCoord r.axis r.b) ∧
    (∀ s, s ∈ coreDeduped base0 extra ↔ s ∈ corePieces base0 extra) ∧
    List.Pairwise (fun s t => segmentKey s.a s.b ≠ segmentKey t.a t.b)
      (coreDeduped base0 extra) := by
  have hbase : ∀ s ∈ coreBase base0, s.Wf := by
    intro s hs
    rw [coreBase, List.mem_filter] at hs
    refine (hw s hs.1).wf ?_
    have h2 := hs.2
    simp only [Bool.not_eq_true', beq_eq_false_iff_ne] at h2
    exact h2
  have hspec := mergeCollinearRuns_spec (coreBase base0) hbase
  have hruns : ∀ r ∈ coreRuns base0, r.Wf := hspec.1
  have hends : ∀ r ∈ coreRuns base0,
      r.a ∈ coreJunctions base0 extra ∧ r.b ∈ coreJunctions base0 extra := by
    intro r hr
    exact ⟨mem_junctionsOf.mpr (Or.inl ⟨r, hr, Or.inl rfl⟩),
      mem_junctionsOf.mpr (Or.inl ⟨r, hr, Or.inr rfl⟩)⟩
  have hpieces : ∀ s ∈ corePieces base0 extra, s.Wf := by
    intro s hs
    rw [corePieces, List.mem_flatMap] at hs
    obtain ⟨r, hr, hsr⟩ := hs
    exact ((splitRun_spec (hruns r hr) (hends r hr).1 (hends r hr).2).1 s hsr).1
  have hspan : ∀ s ∈ corePieces base0 extra, ∃ r ∈ coreRuns base0, s.axis = r.axis ∧
      constCoord r.axis s.a = constCoord r.axis r.a ∧
      varCoord r.axis r.a ≤ varCoord r.axis s.a ∧
      varCoord r.axis s.b ≤ varCoord r.axis r.b := by
    intro s hs
    rw [corePieces, List.mem_flatMap] at hs
    obtain ⟨r, hr, hsr⟩ := hs
    obtain ⟨-, hax, hc, h1, h2⟩ :=
      (splitRun_spec (hruns r hr) (hends r hr).1 (hends r hr).2).1 s hsr
    exact ⟨r, hr, hax, hc, h1, h2⟩
  have hded := dedupeSegs_spec hpieces
  exact ⟨hbase, hruns, hspec.2.1, hends, hpieces, hspan, hded.1, hded.2⟩

lemma normalizeCore_mem (base0 : List NSeg) (extra : List Point) (mk : Nat → Nat)
    (hw : ∀ s ∈ base0, s.WeakWf) :
    (∀ w ∈ normalizeCore base0 extra mk, ∃ s ∈ coreDeduped base0 extra,
      s.Wf ∧ w.a = s.a ∧ w.b = s.b) ∧
    (∀ s ∈ coreDeduped base0 extra, ∃ w ∈ normalizeCore base0 extra mk,
      w.a = s.a ∧ w.b = s.b) := by
  obtain ⟨-, -, -, -, hpieces, -, hded, -⟩ := core_facts base0 extra hw
  have hdw : ∀ s ∈ coreDeduped base0 extra, s.Wf :=
    fun s hs => hpieces s ((hded s).mp hs)
  have heq : normalizeCore base0 extra mk =
      (coreDeduped base0 extra).mapIdx (fun i s => ⟨mk i, s.a, s.b⟩) := by
    rw [normalizeCore_eq, filter_nondeg_eq hdw]
  constructor
  · intro w hwmem
    rw [heq] at hwmem
    obtain ⟨s, hs, h1, h2⟩ := mem_mapIdx_geom mk hwmem
    exact ⟨s, hs, hdw s hs, h1, h2⟩
  · intro s hs
    rw [heq]
    exact mapIdx_geom_surj mk hs

lemma pairwise_or {α} {R : α → α → Prop} : ∀ {l : List α}, List.Pairwise R l →
    ∀ {s t : α}, s ∈ l → t ∈ l → s ≠ t → R s t ∨ R t s := by
  intro l hp
  induction hp with
  | nil =>
    intro s t hs _ _
    cases hs
  | cons hhead _ ih =>
    intro s t hs ht hne
    rcases List.mem_cons.mp hs with rfl | hs' <;>
      rcases List.mem_cons.mp ht with heq | ht'
    · exact absurd heq.symm hne
    · exact Or.inl (hhead t ht')
    · rw [heq] at hne ⊢
      exact Or.inr (hhead s hs')
    · exact ih hs' ht' hne

lemma pieces_no_overlap (base0 : List NSeg) (extra : List Point)
    (hw : ∀ s ∈ base0, s.WeakWf) :
    ∀ s ∈ corePieces base0 extra, ∀ t ∈ corePieces base0 extra, s ≠ t →
      (s.a.x = s.b.x → t.a.x = t.b.x → s.a.x = t.a.x →
        max s.a.y s.b.y ≤ min t.a.y t.b.y ∨ max t.a.y t.b.y ≤ min s.a.y s.b.y) ∧
      (s.a.y = s.b.y → t.a.y = t.b.y → s.a.y = t.a.y →
        max s.a.x s.b.x ≤ min t.a.x t.b.x ∨ max t.a.x t.b.x ≤ min s.a.x s.b.x) := by
  obtain ⟨hbase, hruns, hsep, hends, hpieces, hspan, -, -⟩ := core_facts base0 extra hw
  intro s hs t ht hne
  have hs' := hs
  rw [corePieces, List.mem_flatMap] at hs'
  obtain ⟨r, hr, hsr⟩ := hs'
  have ht' := ht
  rw [corePieces, List.mem_flatMap] at ht'
  obtain ⟨r2, hr2, htr⟩ := ht'
  have sspec := splitRun_spec (hruns r hr) (hends r hr).1 (hends r hr).2
  have tspec := splitRun_spec (hruns r2 hr2) (hends r2 hr2).1 (hends r2 hr2).2
  obtain ⟨hsWf, hsax, hsc, hs1, hs2⟩ := sspec.1 s hsr
  obtain ⟨htWf, htax, htc, ht1, ht2⟩ := tspec.1 t htr
  obtain ⟨hsc0, hsv0⟩ := hsWf
  obtain ⟨htc0, htv0⟩ := htWf
  constructor
  · intro hsx htx hxeq
    have hsaxv : s.axis = Axis.v := by
      cases hax : s.axis
      · exfalso
        rw [hax] at hsv0
        simp only [varCoord] at hsv0
        omega
      · rfl
    have htaxv : t.axis = Axis.v := by
      cases hax : t.axis
      · exfalso
        rw [hax] at htv0
        simp only [varCoord] at htv0
        omega
      · rfl
    have hrv : r.axis = Axis.v := by
      rw [← hsax]
      exact hsaxv
    have hr2v : r2.axis = Axis.v := by
      rw [← htax]
      exact htaxv
    rw [hrv] at hsc hs1 hs2
    rw [hr2v] at htc ht1 ht2
    have hsc' : s.a.x = r.a.x := hsc
    have hs1' : r.a.y ≤ s.a.y := hs1
    have hs2' : s.b.y ≤ r.b.y := hs2
    have htc' : t.a.x = r2.a.x := htc
    have ht1' : r2.a.y ≤ t.a.y := ht1
    have ht2' : t.b.y ≤ r2.b.y := ht2
    rw [hsaxv] at hsv0
    rw [htaxv] at htv0
    have hsv : s.a.y < s.b.y := hsv0
    have htv : t.a.y < t.b.y := htv0
    by_cases hsep2 : s.b.y ≤ t.a.y ∨ t.b.y ≤ s.a.y
    · rcases hsep2 with h | h
      · left
        omega
      · right
        omega
    · exfalso
      push_neg at hsep2
      obtain ⟨ho1, ho2⟩ := hsep2
      have hreq : r = r2 := by
        apply hsep r hr r2 hr2
        · rw [hrv, hr2v]
        · rw [hrv, hr2v]
          show r.a.x = r2.a.x
          omega
        · rw [hrv]
          show r.a.y ≤ r2.b.y
          omega
        · rw [hrv]
          show r2.a.y ≤ r.b.y
          omega
      rw [← hreq] at htr
      have hsep3 := pairwise_or sspec.2.1 hsr htr hne
      rw [hrv] at hsep3
      rcases hsep3 with h3 | h3
      · have h4 : s.b.y ≤ t.a.y := h3
        omega
      · have h4 : t.b.y ≤ s.a.y := h3
        omega
  · intro hsy hty hyeq
    have hsaxh : s.axis = Axis.h := by
      cases hax : s.axis
      · rfl
      · exfalso
        rw [hax] at hsv0
        simp only [varCoord] at hsv0
        omega
    have htaxh : t.axis = Axis.h := by
      cases hax : t.axis
      · rfl
      · exfalso
        rw [hax] at htv0
        simp only [varCoord] at htv0
        omega
    have hrh : r.axis = Axis.h := by
      rw [← hsax]
      exact hsaxh
    have hr2h : r2.axis = Axis.h := by
      rw [← htax]
      exact htaxh
    rw [hrh] at hsc hs1 hs2
    rw [hr2h] at htc ht1 ht2
    have hsc' : s.a.y = r.a.y := hsc
    have hs1' : r.a.x ≤ s.a.x := hs1
    have hs2' : s.b.x ≤ r.b.x := hs2
    have htc' : t.a.y = r2.a.y := htc
    have ht1' : r2.a.x ≤ t.a.x := ht1
    have ht2' : t.b.x ≤ r2.b.x := ht2
    rw [hsaxh] at hsv0
    rw [htaxh] at htv0
    have hsv : s.a.x < s.b.x := hsv0
    have htv : t.a.x < t.b.x := htv0
    by_cases hsep2 : s.b.x ≤ t.a.x ∨ t.b.x ≤ s.a.x
    · rcases hsep2 with h | h
      · left
        omega
      · right
        omega
    · exfalso
      push_neg at hsep2
      obtain ⟨ho1, ho2⟩ := hsep2
      have hreq : r = r2 := by
        apply hsep r hr r2 hr2
        · rw [hrh, hr2h]
        · rw [hrh, hr2h]
          show r.a.y = r2.a.y
          omega
        · rw [hrh]
          show r.a.x ≤ r2.b.x
          omega
        · rw [hrh]
          show r2.a.x ≤ r.b.x
          omega
      rw [← hreq] at htr
      have hsep3 := pairwise_or sspec.2.1 hsr htr hne
      rw [hrh] at hsep3
      rcases hsep3 with h3 | h3
      · have h4 : s.b.x ≤ t.a.x := h3
        omega
      · have h4 : t.b.x ≤ s.a.x := h3
        omega

/-! ## Idempotence of the core pipeline -/

lemma runs_idem (base0 : List NSeg) (extra : List Point) (base2 : List NSeg)
    (hw : ∀ s ∈ base0, s.WeakWf)
    (hb2 : ∀ s, s ∈ coreBase base2 ↔ s ∈ corePieces base0 extra) :
    ∀ r, r ∈ coreRuns base2 ↔ r ∈ coreRuns base0 := by
  obtain ⟨hbase1, hruns1, hsep1, hends1, hpieces1, hspan1, hded1, -⟩ :=
    core_facts base0 extra hw
  have hbase2wf : ∀ s ∈ coreBase base2, s.Wf :=
    fun s hs => hpieces1 s ((hb2 s).mp hs)
  have hspec2 := mergeCollinearRuns_spec (coreBase base2) hbase2wf
  have hruns2 : ∀ r ∈ coreRuns base2, r.Wf := hspec2.1
  have hsep2 : ∀ r ∈ coreRuns base2, ∀ t ∈ coreRuns base2, r.axis = t.axis →
      constCoord r.axis r.a = constCoord t.axis t.a →
      varCoord r.axis r.a ≤ varCoord r.axis t.b →
      varCoord r.axis t.a ≤ varCoord r.axis r.b → r = t := hspec2.2.1
  have hA : ∀ r2 ∈ coreRuns base2, ∃ r1 ∈ coreRuns base0, r1.axis = r2.axis ∧
      constCoord r2.axis r1.a = constCoord r2.axis r2.a ∧
      varCoord r2.axis r1.a ≤ varCoord r2.axis r2.a ∧
      varCoord r2.axis r2.b ≤ varCoord r2.axis r1.b := by
    refine mergeCollinearRuns_sub_family (coreBase base2) (coreRuns base0)
      hbase2wf hsep1 ?_
    intro s hs
    obtain ⟨r, hr, hax, hc, h1, h2⟩ := hspan1 s ((hb2 s).mp hs)
    rw [hax]
    exact ⟨r, hr, rfl, hc.symm, h1, h2⟩
  have hB : ∀ r1 ∈ coreRuns base0, ∃ r2 ∈ coreRuns base2, r2.axis = r1.axis ∧
      constCoord r1.axis r2.a = constCoord r1.axis r1.a ∧
      varCoord r1.axis r2.a ≤ varCoord r1.axis r1.a ∧
      varCoord r1.axis r1.b ≤ varCoord r1.axis r2.b := by
    intro r1 hr1
    have hsplit := splitRun_spec (hruns1 r1 hr1) (hends1 r1 hr1).1 (hends1 r1 hr1).2
    have hjoin : ∀ a b c : Int,
        ((∃ r2 ∈ coreRuns base2, r2.axis = r1.axis ∧
          constCoord r1.axis r2.a = constCoord r1.axis r1.a ∧
          varCoord r1.axis r2.a ≤ a ∧ b ≤ varCoord r1.axis r2.b) ∧ a ≤ b) →
        ((∃ r2 ∈ coreRuns base2, r2.axis = r1.axis ∧
          constCoord r1.axis r2.a = constCoord r1.axis r1.a ∧
          varCoord r1.axis r2.a ≤ b ∧ c ≤ varCoord r1.axis r2.b) ∧ b ≤ c) →
        ((∃ r2 ∈ coreRuns base2, r2.axis = r1.axis ∧
          constCoord r1.axis r2.a = constCoord r1.axis r1.a ∧
          varCoord r1.axis r2.a ≤ a ∧ c ≤ varCoord r1.axis r2.b) ∧ a ≤ c) := by
      rintro a b c ⟨⟨u, hu, huax, huc, hu1, hu2⟩, hab⟩
        ⟨⟨v, hv, hvax, hvc, hv1, hv2⟩, hbc⟩
      have huv : u = v := by
        apply hsep2 u hu v hv
        · rw [huax, hvax]
        · rw [huax, hvax]
          omega
        · rw [huax]
          omega
        · rw [huax]
          omega
      refine ⟨⟨u, hu, huax, huc, hu1, ?_⟩, by omega⟩
      rw [huv]
      omega
    have hQpieces : ∀ s ∈ splitRun (coreJunctions base0 extra) r1,
        (∃ r2 ∈ coreRuns base2, r2.axis = r1.axis ∧
          constCoord r1.axis r2.a = constCoord r1.axis r1.a ∧
          varCoord r1.axis r2.a ≤ varCoord r1.axis s.a ∧
          varCoord r1.axis s.b ≤ varCoord r1.axis r2.b) ∧
        varCoord r1.axis s.a ≤ varCoord r1.axis s.b := by
      intro s hsmem
      obtain ⟨hsWf, hsax, hsc, hs1, hs2⟩ := hsplit.1 s hsmem
      have hsp : s ∈ corePieces base0 extra := by
        rw [corePieces, List.mem_flatMap]
        exact ⟨r1, hr1, hsmem⟩
      have hsb2 : s ∈ coreBase base2 := (hb2 s).mpr hsp
      obtain ⟨u, hu, huax, huc, hu1, hu2⟩ := hspec2.2.2 s hsb2
      rw [hsax] at huc hu1 hu2
      refine ⟨⟨u, hu, ?_, ?_, hu1, hu2⟩, ?_⟩
      · rw [huax, hsax]
      · exact huc.trans hsc
      · have hv := hsWf.2
        rw [hsax] at hv
        exact le_of_lt hv
    exact (hsplit.2.2.2
      (fun a b => (∃ r2 ∈ coreRuns base2, r2.axis = r1.axis ∧
        constCoord r1.axis r2.a = constCoord r1.axis r1.a ∧
        varCoord r1.axis r2.a ≤ a ∧ b ≤ varCoord r1.axis r2.b) ∧ a ≤ b)
      hjoin hQpieces).1
  intro r
  constructor
  · intro hr
    obtain ⟨r1, hr1, h1ax, h1c, h11, h12⟩ := hA r hr
    obtain ⟨r2', hr2', h2ax, h2c, h21, h22⟩ := hB r1 hr1
    rw [h1ax] at h2ax h2c h21 h22
    have hrwf := hruns2 r hr
    have hv := hrwf.2
    have hreq : r = r2' := by
      apply hsep2 r hr r2' hr2'
      · rw [h2ax]
      · rw [h2ax]
        omega
      · omega
      · omega
    rw [← hreq] at h21 h22
    have e1 : varCoord r.axis r1.a = varCoord r.axis r.a := by omega
    have e2 : varCoord r.axis r1.b = varCoord r.axis r.b := by omega
    have hc1b : constCoord r.axis r1.a = constCoord r.axis r1.b := by
      have h := (hruns1 r1 hr1).1
      rw [h1ax] at h
      exact h
    have hcrb : constCoord r.axis r.a = constCoord r.axis r.b := hrwf.1
    have ea : r1.a = r.a := eq_of_coords r.axis h1c e1
    have eb : r1.b = r.b := eq_of_coords r.axis (by omega) e2
    have hfin : r = r1 := by
      have ex : r.axis = r1.axis := h1ax.symm
      cases r
      cases r1
      dsimp only at ea eb ex
      rw [ea, eb, ex]
    rw [hfin]
    exact hr1
  · intro hr
    obtain ⟨r2, hr2, h2ax, h2c, h21, h22⟩ := hB r hr
    obtain ⟨r1', hr1', h1ax, h1c, h11, h12⟩ := hA r2 hr2
    rw [h2ax] at h1ax h1c h11 h12
    have hrwf := hruns1 r hr
    have hv := hrwf.2
    have hreq : r = r1' := by
      apply hsep1 r hr r1' hr1'
      · exact h1ax.symm
      · rw [h1ax]
        omega
      · omega
      · omega
    rw [← hreq] at h11 h12
    have e1 : varCoord r.axis r2.a = varCoord r.axis r.a := by omega
    have e2 : varCoord r.axis r2.b = varCoord r.axis r.b := by omega
    have hc2b : constCoord r.axis r2.a = constCoord r.axis r2.b := by
      have h := (hruns2 r2 hr2).1
      rw [h2ax] at h
      exact h
    have hcrb : constCoord r.axis r.a = constCoord r.axis r.b := hrwf.1
    have ea : r2.a = r.a := eq_of_coords r.axis h2c e1
    have eb : r2.b = r.b := eq_of_coords r.axis (by omega) e2
    have hfin : r = r2 := by
      have ex : r.axis = r2.axis := h2ax.symm
      cases r
      cases r2
      dsimp only at ea eb ex
      rw [ea, eb, ex]
    rw [hfin]
    exact hr2

lemma junctions_idem (base0 : List NSeg) (extra : List Point) (base2 : List NSeg)
    (hriff : ∀ r, r ∈ coreRuns base2 ↔ r ∈ coreRuns base0) :
    ∀ p, p ∈ coreJunctions base2 extra ↔ p ∈ coreJunctions base0 extra := by
  intro p
  rw [show coreJunctions base2 extra = junctionsOf (coreRuns base2) extra from rfl,
    show coreJunctions base0 extra = junctionsOf (coreRuns base0) extra from rfl,
    mem_junctionsOf, mem_junctionsOf]
  constructor
  · rintro (⟨r, hr, hor⟩ | hp | ⟨u, hu, w, hw2, hrest⟩)
    · exact Or.inl ⟨r, (hriff r).mp hr, hor⟩
    · exact Or.inr (Or.inl hp)
    · exact Or.inr (Or.inr ⟨u, (hriff u).mp hu, w, (hriff w).mp hw2, hrest⟩)
  · rintro (⟨r, hr, hor⟩ | hp | ⟨u, hu, w, hw2, hrest⟩)
    · exact Or.inl ⟨r, (hriff r).mpr hr, hor⟩
    · exact Or.inr (Or.inl hp)
    · exact Or.inr (Or.inr ⟨u, (hriff u).mpr hu, w, (hriff w).mpr hw2, hrest⟩)

lemma pieces_idem (base0 : List NSeg) (extra : List Point) (base2 : List NSeg)
    (hw : ∀ s ∈ base0, s.WeakWf)
    (hb2 : ∀ s, s ∈ coreBase base2 ↔ s ∈ corePieces base0 extra) :
    ∀ s, s ∈ corePieces base2 extra ↔ s ∈ corePieces base0 extra := by
  have hriff := runs_idem base0 extra base2 hw hb2
  have hjiff := junctions_idem base0 extra base2 hriff
  obtain ⟨-, hruns1, -, -, -, -, -, -⟩ := core_facts base0 extra hw
  have hsplit_eq : ∀ r ∈ coreRuns base0,
      splitRun (coreJunctions base2 extra) r =
        splitRun (coreJunctions base0 extra) r := by
    intro r hr
    unfold splitRun
    rw [cutsSorted_ext (hruns1 r hr) (fun p _ => hjiff p)]
  intro s
  rw [show corePieces base2 extra =
      (coreRuns base2).flatMap (splitRun (coreJunctions base2 extra)) from rfl,
    show corePieces base0 extra =
      (coreRuns base0).flatMap (splitRun (coreJunctions base0 extra)) from rfl,
    List.mem_flatMap, List.mem_flatMap]
  constructor
  · rintro ⟨r, hr, hs⟩
    have hr0 := (hriff r).mp hr
    rw [hsplit_eq r hr0] at hs
    exact ⟨r, hr0, hs⟩
  · rintro ⟨r, hr, hs⟩
    refine ⟨r, (hriff r).mpr hr, ?_⟩
    rw [hsplit_eq r hr]
    exact hs

/-! ## Claim theorems -/

/-- Claim C1, counterexample: with `incomingAxis = h`, `fixed = (0,0)` and
`target = (30,40)`, `manhattanFromFixed` produces the vertical-first path
`(0,0)-(0,40)-(30,40)`, not the horizontal-first path `(0,0)-(30,0)-(30,40)`
the claim demands. -/
theorem C1_route_from_anchor_counterexample :
    manhattanFromFixed ⟨0,0⟩ ⟨30,40⟩ Axis.h =
      [⟨⟨0,0⟩, ⟨0,40⟩⟩, ⟨⟨0,40⟩, ⟨30,40⟩⟩] ∧
    manhattanFromFixed ⟨0,0⟩ ⟨30,40⟩ Axis.h ≠
      [⟨⟨0,0⟩, ⟨30,0⟩⟩, ⟨⟨30,0⟩, ⟨30,40⟩⟩] := by
  decide

/-- Claim C1, amended: for unaligned fixed/target points, `manhattanFromFixed`
bends at `(fixed.x, target.y)` when the severed wire was horizontal (the path
departs `fixed` along the perpendicular axis), and at `(target.x, fixed.y)` when
it was vertical. -/
theorem C1_route_from_anchor_amended (f t : Point) (hx : f.x ≠ t.x) (hy : f.y ≠ t.y) :
    manhattanFromFixed f t Axis.h = [⟨f, ⟨f.x, t.y⟩⟩, ⟨⟨f.x, t.y⟩, t⟩] ∧
    manhattanFromFixed f t Axis.v = [⟨f, ⟨t.x, f.y⟩⟩, ⟨⟨t.x, f.y⟩, t⟩] := by
  have hc : ¬(f.x = t.x ∨ f.y = t.y) := fun h => h.elim hx hy
  constructor <;> simp [manhattanFromFixed, hc]

/-- Claim C1, witness: the amended routing behaviour at `fixed = (0,0)`,
`target = (30,40)`. -/
theorem C1_route_from_anchor_witness :
    manhattanFromFixed ⟨0,0⟩ ⟨30,40⟩ Axis.h =
      [⟨⟨0,0⟩, ⟨0,40⟩⟩, ⟨⟨0,40⟩, ⟨30,40⟩⟩] ∧
    manhattanFromFixed ⟨0,0⟩ ⟨30,40⟩ Axis.v =
      [⟨⟨0,0⟩, ⟨30,0⟩⟩, ⟨⟨30,0⟩, ⟨30,40⟩⟩] :=
  C1_route_from_anchor_amended ⟨0,0⟩ ⟨30,40⟩ (by decide) (by decide)

/-- Claim C9: `manhattanSegments` returns the single segment `[a,b]` when the
points share a coordinate, and otherwise exactly the horizontal-first elbow
through `(b.x, a.y)` — never the vertical-first elbow through `(a.x, b.y)`. -/
theorem C9_route_freeform (a b : Point) :
    (a.x = b.x ∨ a.y = b.y → manhattanSegments a b = [⟨a, b⟩]) ∧
    (a.x ≠ b.x → a.y ≠ b.y →
      manhattanSegments a b = [⟨a, ⟨b.x, a.y⟩⟩, ⟨⟨b.x, a.y⟩, b⟩] ∧
      manhattanSegments a b ≠ [⟨a, ⟨a.x, b.y⟩⟩, ⟨⟨a.x, b.y⟩, b⟩]) := by
  constructor
  · intro h
    unfold manhattanSegments
    rw [if_pos h]
  · intro hx hy
    have hc : ¬(a.x = b.x ∨ a.y = b.y) := fun h => h.elim hx hy
    unfold manhattanSegments
    rw [if_neg hc]
    refine ⟨rfl, fun heq => ?_⟩
    simp only [List.cons.injEq, RawSeg.mk.injEq, Point.mk.injEq] at heq
    exact hx heq.1.2.1.symm

/-- Claim C9, witness: the aligned case at `(0,0)`/`(30,0)` and the unaligned
case at `(0,0)`/`(30,40)`. -/
theorem C9_route_freeform_witness :
    manhattanSegments ⟨0,0⟩ ⟨30,0⟩ = [⟨⟨0,0⟩, ⟨30,0⟩⟩] ∧
    (manhattanSegments ⟨0,0⟩ ⟨30,40⟩ =
        [⟨⟨0,0⟩, ⟨30,0⟩⟩, ⟨⟨30,0⟩, ⟨30,40⟩⟩] ∧
      manhattanSegments ⟨0,0⟩ ⟨30,40⟩ ≠
        [⟨⟨0,0⟩, ⟨0,40⟩⟩, ⟨⟨0,40⟩, ⟨30,40⟩⟩]) :=
  ⟨(C9_route_freeform ⟨0,0⟩ ⟨30,0⟩).1 (Or.inr rfl),
   (C9_route_freeform ⟨0,0⟩ ⟨30,40⟩).2 (by decide) (by decide)⟩

/-- Claim C4: if any wire endpoint other than the two ports lies strictly
between an axis-aligned port pair, `spliceOutBetweenPorts` deletes nothing and
returns the wire set unchanged (stated, as in the claim, for wire sets
containing some diagonal segment); and on the concrete T-junction scenario —
ports `(0,0)`/`(100,0)`, wires `(0,0)-(100,0)` and `(50,0)-(50,50)` — the full
splice pipeline retains `(0,0)-(50,0)`, `(50,0)-(100,0)` and `(50,0)-(50,50)`. -/
theorem C4_splice_abort_on_T_junction :
    (∀ (W : List WireSegment) (pair : PortPair),
      (∃ s ∈ W, s.a.x ≠ s.b.x ∧ s.a.y ≠ s.b.y) →
      (pair.a.x = pair.b.x ∨ pair.a.y = pair.b.y) →
      (∃ s ∈ W, ∃ ep ∈ [s.a, s.b], ep ≠ pair.a ∧ ep ≠ pair.b ∧
        pointStrictlyBetweenPorts ep pair.a pair.b = true) →
      spliceOutBetweenPorts W pair = W) ∧
    normalizeAndSpliceWires
        [⟨0, ⟨0,0⟩, ⟨100,0⟩⟩, ⟨1, ⟨50,0⟩, ⟨50,50⟩⟩] [comp1] (fun _ => hType100)
        (fun i => i)
      = .ok [⟨0, ⟨0,0⟩, ⟨50,0⟩⟩, ⟨1, ⟨50,0⟩, ⟨100,0⟩⟩, ⟨2, ⟨50,0⟩, ⟨50,50⟩⟩] := by
  constructor
  · intro W pair _ hAlign hForeign
    rw [spliceOutBetweenPorts_eq]
    rw [if_neg (by tauto)]
    rw [if_pos ?_]
    obtain ⟨s, hs, ep, hep, h1, h2, h3⟩ := hForeign
    refine List.any_eq_true.mpr ⟨s, hs, List.any_eq_true.mpr ⟨ep, hep, ?_⟩⟩
    have b1 : samePoint ep pair.a = false := by
      rw [← Bool.not_eq_true, samePoint_iff]
      exact h1
    have b2 : samePoint ep pair.b = false := by
      rw [← Bool.not_eq_true, samePoint_iff]
      exact h2
    rw [b1, b2, h3]
    rfl
  · rfl

/-- Claim C4, witness: a wire set containing a diagonal segment, aligned ports
`(0,0)`/`(100,0)`, and the foreign endpoint `(50,0)` strictly between them, on
which the splice step leaves the wire set unchanged. -/
theorem C4_splice_abort_witness :
    spliceOutBetweenPorts
        [⟨0, ⟨0,0⟩, ⟨30,40⟩⟩, ⟨1, ⟨50,0⟩, ⟨50,50⟩⟩] ⟨⟨0,0⟩, ⟨100,0⟩⟩
      = [⟨0, ⟨0,0⟩, ⟨30,40⟩⟩, ⟨1, ⟨50,0⟩, ⟨50,50⟩⟩] :=
  C4_splice_abort_on_T_junction.1
    [⟨0, ⟨0,0⟩, ⟨30,40⟩⟩, ⟨1, ⟨50,0⟩, ⟨50,50⟩⟩] ⟨⟨0,0⟩, ⟨100,0⟩⟩
    ⟨⟨0, ⟨0,0⟩, ⟨30,40⟩⟩, by decide, by decide⟩
    (by decide)
    ⟨⟨1, ⟨50,0⟩, ⟨50,50⟩⟩, by decide, ⟨50,0⟩, by decide, by decide, by decide,
      by decide⟩

/-- Claim C5: for an axis-aligned two-port pair with no foreign endpoint
strictly between the ports, `spliceOutBetweenPorts` deletes exactly the
segments whose both endpoints lie on the port line within the closed port
interval; components whose port count is not 2 contribute no splice at all;
and the concrete full-splice scenario — ports `(0,0)`/`(100,0)` and the single
wire `(0,0)-(100,0)` — leaves zero wire segments. -/
theorem C5_full_splice :
    (∀ (W : List WireSegment) (pair : PortPair),
      (pair.a.x = pair.b.x ∨ pair.a.y = pair.b.y) →
      (∀ s ∈ W, ∀ ep ∈ [s.a, s.b], ep ≠ pair.a → ep ≠ pair.b →
        pointStrictlyBetweenPorts ep pair.a pair.b = false) →
      spliceOutBetweenPorts W pair =
        W.filter (fun s => !(withinPortSpan pair s.a && withinPortSpan pair s.b))) ∧
    (∀ (wires : List WireSegment) (comps : List ComponentInstance)
      (getType : Nat → ComponentType) (mk : Nat → Nat),
      (∀ c ∈ comps, ((getType c.typeId).portWorldPositions c).length ≠ 2) →
      normalizeAndSpliceWires wires comps getType mk =
        normalizeAndSegmentWires wires [] mk) ∧
    normalizeAndSpliceWires [⟨0, ⟨0,0⟩, ⟨100,0⟩⟩] [comp1] (fun _ => hType100)
        (fun i => i)
      = .ok [] := by
  refine ⟨?_, ?_, by rfl⟩
  · intro W pair hAlign hNoForeign
    rw [spliceOutBetweenPorts_eq]
    rw [if_neg (by tauto)]
    have habort : spliceAbort W pair.a pair.b = false := by
      rw [← Bool.not_eq_true]
      intro hc
      obtain ⟨s, hs, hin⟩ := List.any_eq_true.mp hc
      obtain ⟨ep, hep, hb⟩ := List.any_eq_true.mp hin
      simp only [Bool.and_eq_true, Bool.not_eq_true'] at hb
      have h1 : ep ≠ pair.a := fun h => by simp [(samePoint_iff ep pair.a).mpr h] at hb
      have h2 : ep ≠ pair.b := fun h => by simp [(samePoint_iff ep pair.b).mpr h] at hb
      have := hNoForeign s hs ep hep h1 h2
      rw [this] at hb
      exact Bool.false_ne_true hb.2
    rw [habort]
    by_cases hv : pair.a.x = pair.b.x
    · rw [if_neg (by simp), if_pos hv]
      exact List.filter_congr (fun s _ => keep_eq_vertical pair hv s)
    · have hh : pair.a.y = pair.b.y := hAlign.resolve_left hv
      rw [if_neg (by simp), if_neg hv]
      exact List.filter_congr (fun s _ => keep_eq_horizontal pair hv hh s)
  · intro wires comps getType mk hPorts
    have hfold : ∀ (cs : List ComponentInstance),
        (∀ c ∈ cs, ((getType c.typeId).portWorldPositions c).length ≠ 2) →
        ∀ acc : List PortPair, cs.foldl (fun out inst =>
          match (getType inst.typeId).portWorldPositions inst with
          | [p, q] => out ++ [⟨p.pos, q.pos⟩]
          | _ => out) acc = acc := by
      intro cs
      induction cs with
      | nil => intro _ _; rfl
      | cons c rest ih =>
        intro hcs acc
        have hc := hcs c (List.mem_cons_self c rest)
        rw [List.foldl_cons]
        have hstep : (match (getType c.typeId).portWorldPositions c with
            | [p, q] => acc ++ [PortPair.mk p.pos q.pos]
            | _ => acc) = acc := by
          rcases hps : (getType c.typeId).portWorldPositions c with _ | ⟨p, _ | ⟨q, _ | _⟩⟩
          · rfl
          · rfl
          · rw [hps] at hc
            simp at hc
          · rfl
        rw [hstep]
        exact ih (fun c' hc' => hcs c' (List.mem_cons_of_mem c hc')) acc
    have hpairs : getTwoPortPairs comps getType = [] := hfold comps hPorts []
    by_cases hemp : wires.isEmpty
    · unfold normalizeAndSpliceWires normalizeAndSegmentWires
      rw [if_pos hemp, if_pos hemp]
    · rcases hn : normalizeAndSegmentWires wires [] mk with e | out <;>
        simp [normalizeAndSpliceWires, hemp, hpairs, hn, bind, Except.bind]

/-- Claim C5, witness: the clean-span deletion at ports `(0,0)`/`(100,0)` with
the single wire `(0,0)-(100,0)`, and the no-splice behaviour for a one-port
component. -/
theorem C5_full_splice_witness :
    spliceOutBetweenPorts [⟨0, ⟨0,0⟩, ⟨100,0⟩⟩] ⟨⟨0,0⟩, ⟨100,0⟩⟩ =
      List.filter
        (fun s => !(withinPortSpan ⟨⟨0,0⟩, ⟨100,0⟩⟩ s.a &&
          withinPortSpan ⟨⟨0,0⟩, ⟨100,0⟩⟩ s.b)) [⟨0, ⟨0,0⟩, ⟨100,0⟩⟩] ∧
    normalizeAndSpliceWires [⟨0, ⟨0,0⟩, ⟨50,0⟩⟩] [comp1] (fun _ => onePortType)
        (fun i => i)
      = normalizeAndSegmentWires [⟨0, ⟨0,0⟩, ⟨50,0⟩⟩] [] (fun i => i) :=
  ⟨C5_full_splice.1 [⟨0, ⟨0,0⟩, ⟨100,0⟩⟩] ⟨⟨0,0⟩, ⟨100,0⟩⟩ (by decide) (by decide),
   C5_full_splice.2.1 [⟨0, ⟨0,0⟩, ⟨50,0⟩⟩] [comp1] (fun _ => onePortType)
     (fun i => i) (by decide)⟩


/-- Claim C8, counterexample: in the `st1` scenario component 1 already owns the
session, yet calling `beginRerouteForSelectedComponent` again with id 1 empties
the attachments list and the preview (the previously captured attachment is
dropped), so the call is not a no-op. -/
theorem C8_begin_reroute_counterexample :
    st1.rerouteOwnerId = some 1 ∧
    st1.rerouteAttachments = [⟨⟨10,0⟩, Axis.h, ⟨0,0⟩⟩] ∧
    st1.dragWirePreview = [⟨⟨10,0⟩, ⟨0,0⟩⟩] ∧
    (beginRerouteForSelectedComponent sessionGetType st1 1).rerouteAttachments = [] ∧
    (beginRerouteForSelectedComponent sessionGetType st1 1).dragWirePreview = [] := by
  decide

/-- Claim C8, amended: the already-owned no-op guard lives in `startDrag`: when
the component already owns the session, `startDrag` leaves the canonical wires,
owner, attachments and preview unchanged (it only records the move-drag
offset); `beginRerouteForSelectedComponent` itself performs no ownership check
and re-captures attachments and preview from the current wires. -/
theorem C8_begin_reroute_amended (g : Nat → ComponentType) (st : AppState)
    (id : Nat) (ptr : Point) (h : st.rerouteOwnerId = some id) :
    (startDrag g st id ptr).state.wires = st.state.wires ∧
    (startDrag g st id ptr).rerouteOwnerId = st.rerouteOwnerId ∧
    (startDrag g st id ptr).rerouteAttachments = st.rerouteAttachments ∧
    (startDrag g st id ptr).dragWirePreview = st.dragWirePreview := by
  unfold startDrag
  cases hf : st.state.components.find? (fun c => c.id == id) with
  | none => exact ⟨rfl, rfl, rfl, rfl⟩
  | some inst =>
    rw [if_neg (not_not_intro h)]
    exact ⟨rfl, rfl, rfl, rfl⟩

/-- Claim C8, witness: the no-op guard of `startDrag` at the concrete owned
scenario `st1`. -/
theorem C8_begin_reroute_witness :
    (startDrag sessionGetType st1 1 ⟨3, 4⟩).state.wires = st1.state.wires ∧
    (startDrag sessionGetType st1 1 ⟨3, 4⟩).rerouteOwnerId = st1.rerouteOwnerId ∧
    (startDrag sessionGetType st1 1 ⟨3, 4⟩).rerouteAttachments =
      st1.rerouteAttachments ∧
    (startDrag sessionGetType st1 1 ⟨3, 4⟩).dragWirePreview = st1.dragWirePreview :=
  C8_begin_reroute_amended sessionGetType st1 1 ⟨3, 4⟩ (by decide)

/-- Claim C6, counterexample: in the `st1` scenario (active session owned by
component 1, preview `[(10,0)-(0,0)]`), deleting the owned component leaves the
canonical wire set containing `(0,0)-(10,0)` — a segment with exactly the
geometry of the session's preview segment, which was committed, not dropped. -/
theorem C6_delete_counterexample :
    st1.dragWirePreview = [⟨⟨10,0⟩, ⟨0,0⟩⟩] ∧
    (deleteSelection sessionGetType st1).toOption.map (fun s => s.state.wires)
      = some [⟨3, ⟨0,0⟩, ⟨10,0⟩⟩] ∧
    segmentKey (Point.mk 0 0) (Point.mk 10 0)
      = segmentKey (Point.mk 10 0) (Point.mk 0 0) := by
  decide

lemma commitReroutePreview_eq (g : Nat → ComponentType) (st : AppState)
    (hne : st.dragWirePreview ≠ []) :
    commitReroutePreview g st =
      match normalizeAndSpliceWires
          (st.state.wires ++ (st.dragWirePreview.filter (fun s => !(s.a == s.b))).mapIdx
            (fun i s => WireSegment.mk (st.nextId + i) s.a s.b))
          st.state.components g
          (fun i => st.nextId +
            (st.dragWirePreview.filter (fun s => !(s.a == s.b))).length + i) with
      | .error e => .error e
      | .ok ws => .ok { st with
          state := { st.state with wires := ws }
          dragWirePreview := []
          nextId := st.nextId +
            (st.dragWirePreview.filter (fun s => !(s.a == s.b))).length + ws.length } := by
  unfold commitReroutePreview normalizeWiresApp
  rw [if_neg (by simp [List.isEmpty_iff, hne])]
  rcases hn : normalizeAndSpliceWires
      (st.state.wires ++ (st.dragWirePreview.filter (fun s => !(s.a == s.b))).mapIdx
        (fun i s => WireSegment.mk (st.nextId + i) s.a s.b))
      st.state.components g
      (fun i => st.nextId +
        (st.dragWirePreview.filter (fun s => !(s.a == s.b))).length + i)
    with e | ws <;>
    simp [bind, Except.bind, List.length_mapIdx, hn]

/-- Claim C6, amended: deleting the owned symbol during an active session does
reset the session locals (owner, attachments, preview, selection), but the
teardown is not a no-op on the wires: `clearSelection` first commits the
preview, so the canonical wire set becomes the normalize-splice of the
pre-delete wires plus the non-degenerate preview segments. -/
theorem C6_delete_amended (g : Nat → ComponentType) (st : AppState) (id : Nat)
    (st' : AppState) (hsel : st.state.selection = some (.component id))
    (hne : st.dragWirePreview ≠ [])
    (hdel : deleteSelection g st = .ok st') :
    st'.rerouteOwnerId = none ∧ st'.rerouteAttachments = [] ∧
    st'.dragWirePreview = [] ∧ st'.state.selection = none ∧
    st'.state.components = st.state.components.filter (fun c => !(c.id == id)) ∧
    normalizeAndSpliceWires
        (st.state.wires ++ (st.dragWirePreview.filter (fun s => !(s.a == s.b))).mapIdx
          (fun i s => WireSegment.mk (st.nextId + i) s.a s.b))
        (st.state.components.filter (fun c => !(c.id == id))) g
        (fun i => st.nextId +
          (st.dragWirePreview.filter (fun s => !(s.a == s.b))).length + i)
      = .ok st'.state.wires := by
  have hstep : deleteSelection g st = clearSelection g
      { st with state := { st.state with
          components := st.state.components.filter (fun c => !(c.id == id)) } } := by
    unfold deleteSelection
    rw [hsel]
  rw [hstep] at hdel
  unfold clearSelection at hdel
  rw [commitReroutePreview_eq g
      { st with state := { st.state with
          components := st.state.components.filter (fun c => !(c.id == id)) } }
      hne] at hdel
  dsimp only at hdel
  rcases hn : normalizeAndSpliceWires
      (st.state.wires ++ (st.dragWirePreview.filter (fun s => !(s.a == s.b))).mapIdx
        (fun i s => WireSegment.mk (st.nextId + i) s.a s.b))
      (st.state.components.filter (fun c => !(c.id == id))) g
      (fun i => st.nextId +
        (st.dragWirePreview.filter (fun s => !(s.a == s.b))).length + i)
    with e | ws
  · rw [hn] at hdel
    exact Except.noConfusion hdel
  · rw [hn] at hdel
    simp only [bind, Except.bind] at hdel
    injection hdel with hdel
    subst hdel
    exact ⟨rfl, rfl, rfl, rfl, rfl, rfl⟩

/-- Claim C6, witness: the amended teardown behaviour at the concrete `st1`
scenario. -/
theorem C6_delete_witness :
    (⟨{ components := [], wires := [⟨3, ⟨0,0⟩, ⟨10,0⟩⟩], selection := none },
        none, [], [], none, 4⟩ : AppState).rerouteOwnerId = none ∧
    (⟨{ components := [], wires := [⟨3, ⟨0,0⟩, ⟨10,0⟩⟩], selection := none },
        none, [], [], none, 4⟩ : AppState).rerouteAttachments = [] ∧
    (⟨{ components := [], wires := [⟨3, ⟨0,0⟩, ⟨10,0⟩⟩], selection := none },
        none, [], [], none, 4⟩ : AppState).dragWirePreview = [] ∧
    (⟨{ components := [], wires := [⟨3, ⟨0,0⟩, ⟨10,0⟩⟩], selection := none },
        none, [], [], none, 4⟩ : AppState).state.selection = none ∧
    (⟨{ components := [], wires := [⟨3, ⟨0,0⟩, ⟨10,0⟩⟩], selection := none },
        none, [], [], none, 4⟩ : AppState).state.components
      = st1.state.components.filter (fun c => !(c.id == 1)) ∧
    normalizeAndSpliceWires
        (st1.state.wires ++ (st1.dragWirePreview.filter (fun s => !(s.a == s.b))).mapIdx
          (fun i s => WireSegment.mk (st1.nextId + i) s.a s.b))
        (st1.state.components.filter (fun c => !(c.id == 1))) sessionGetType
        (fun i => st1.nextId +
          (st1.dragWirePreview.filter (fun s => !(s.a == s.b))).length + i)
      = .ok (⟨{ components := [], wires := [⟨3, ⟨0,0⟩, ⟨10,0⟩⟩], selection := none },
        none, [], [], none, 4⟩ : AppState).state.wires :=
  C6_delete_amended sessionGetType st1 1
    ⟨{ components := [], wires := [⟨3, ⟨0,0⟩, ⟨10,0⟩⟩], selection := none },
      none, [], [], none, 4⟩ (by decide) (by decide) (by rfl)

/-- Claim C7: `normalizeAndSegmentWires` fails with a `GeometryError` if and
only if some input segment's endpoints differ on both axes; every axis-aligned
input (zero-length segments included) returns normally. -/
theorem C7_geometry_error_iff (wires : List WireSegment) (extra : List Point)
    (mk : Nat → Nat) :
    (∃ e, normalizeAndSegmentWires wires extra mk = .error e) ↔
      ∃ w ∈ wires, w.a.x ≠ w.b.x ∧ w.a.y ≠ w.b.y := by
  unfold normalizeAndSegmentWires
  split
  · rename_i h
    rw [List.isEmpty_iff] at h
    subst h
    simp
  · rcases hmm : mapExcept (fun w => normalizeSegment w.a w.b) wires with e | base
    · have := (mapExcept_normalizeSegment_error_iff wires).mp ⟨e, hmm⟩
      simp [hmm, this]
    · have : ¬∃ w ∈ wires, w.a.x ≠ w.b.x ∧ w.a.y ≠ w.b.y := by
        rw [← mapExcept_normalizeSegment_error_iff]
        simp [hmm]
      simp [hmm, this]

/-- **C10.** For every input on which `normalizeAndSegmentWires` returns
normally, every output segment is axis-aligned with non-zero length (its
endpoints differ in exactly one coordinate), no two output segments have
identical geometry (pairwise distinct `segmentKey`s), and no two collinear
output segments overlap in more than a shared endpoint. -/
theorem C10_output_invariants (wires : List WireSegment) (extra : List Point)
    (mk : Nat → Nat) (out : List WireSegment)
    (hok : normalizeAndSegmentWires wires extra mk = .ok out) :
    (∀ w ∈ out,
      (w.a.x = w.b.x ∧ w.a.y ≠ w.b.y) ∨ (w.a.y = w.b.y ∧ w.a.x ≠ w.b.x)) ∧
    List.Pairwise (fun v w => segmentKey v.a v.b ≠ segmentKey w.a w.b) out ∧
    List.Pairwise (fun v w =>
      (v.a.x = v.b.x → w.a.x = w.b.x → v.a.x = w.a.x →
        max v.a.y v.b.y ≤ min w.a.y w.b.y ∨ max w.a.y w.b.y ≤ min v.a.y v.b.y) ∧
      (v.a.y = v.b.y → w.a.y = w.b.y → v.a.y = w.a.y →
        max v.a.x v.b.x ≤ min w.a.x w.b.x ∨ max w.a.x w.b.x ≤ min v.a.x v.b.x))
      out := by
  unfold normalizeAndSegmentWires at hok
  by_cases hemp : wires.isEmpty = true
  · rw [if_pos hemp] at hok
    injection hok with hok
    rw [← hok]
    exact ⟨fun w hw => absurd hw (List.not_mem_nil w),
      List.Pairwise.nil, List.Pairwise.nil⟩
  · rw [if_neg hemp] at hok
    rcases hm : mapExcept (fun w => normalizeSegment w.a w.b) wires with e | base0
    · rw [hm] at hok
      cases hok
    · rw [hm] at hok
      injection hok with hok
      subst hok
      have hwk := mapExcept_normalizeSegment_weakWf hm
      obtain ⟨hbase, hruns, hsep, hends, hpieces, hspan, hded, hdedp⟩ :=
        core_facts base0 extra hwk
      have hmem := normalizeCore_mem base0 extra mk hwk
      have hno := pieces_no_overlap base0 extra hwk
      have hdw : ∀ s ∈ coreDeduped base0 extra, s.Wf :=
        fun s hs => hpieces s ((hded s).mp hs)
      have heq : normalizeCore base0 extra mk =
          (coreDeduped base0 extra).mapIdx (fun i s => ⟨mk i, s.a, s.b⟩) := by
        rw [normalizeCore_eq, filter_nondeg_eq hdw]
      refine ⟨?_, ?_, ?_⟩
      · intro w hw
        obtain ⟨s, hs, hwf, h1, h2⟩ := hmem.1 w hw
        rw [h1, h2]
        obtain ⟨hc, hv⟩ := hwf
        cases hax : s.axis
        · rw [hax] at hc hv
          right
          refine ⟨hc, ?_⟩
          simp only [varCoord] at hv
          omega
        · rw [hax] at hc hv
          left
          refine ⟨hc, ?_⟩
          simp only [varCoord] at hv
          omega
      · rw [heq]
        refine pairwise_mapIdx_geom ?_ mk hdedp
        intro v w s t h1 h2 h3 h4 hst
        rw [h1, h2, h3, h4]
        exact hst
      · rw [heq]
        have hS : List.Pairwise (fun s t : NSeg =>
            (s.a.x = s.b.x → t.a.x = t.b.x → s.a.x = t.a.x →
              max s.a.y s.b.y ≤ min t.a.y t.b.y ∨
                max t.a.y t.b.y ≤ min s.a.y s.b.y) ∧
            (s.a.y = s.b.y → t.a.y = t.b.y → s.a.y = t.a.y →
              max s.a.x s.b.x ≤ min t.a.x t.b.x ∨
                max t.a.x t.b.x ≤ min s.a.x s.b.x))
            (coreDeduped base0 extra) := by
          refine hdedp.imp_of_mem ?_
          intro a b ha hb hkey
          exact hno a ((hded a).mp ha) b ((hded b).mp hb)
            (fun he => hkey (by rw [he]))
        refine pairwise_mapIdx_geom ?_ mk hS
        intro v w s t h1 h2 h3 h4 hst
        rw [h1, h2, h3, h4]
        exact hst

/-- Witness for C10 at a concrete T-shaped input: a horizontal wire
`(0,0)-(10,0)` and a vertical wire `(5,0)-(5,7)` normalize to three segments
satisfying all three invariants. -/
theorem C10_output_invariants_witness :
    (∀ w ∈ ([⟨0, ⟨0, 0⟩, ⟨5, 0⟩⟩, ⟨1, ⟨5, 0⟩, ⟨10, 0⟩⟩,
        ⟨2, ⟨5, 0⟩, ⟨5, 7⟩⟩] : List WireSegment),
      (w.a.x = w.b.x ∧ w.a.y ≠ w.b.y) ∨ (w.a.y = w.b.y ∧ w.a.x ≠ w.b.x)) ∧
    List.Pairwise (fun v w => segmentKey v.a v.b ≠ segmentKey w.a w.b)
      ([⟨0, ⟨0, 0⟩, ⟨5, 0⟩⟩, ⟨1, ⟨5, 0⟩, ⟨10, 0⟩⟩,
        ⟨2, ⟨5, 0⟩, ⟨5, 7⟩⟩] : List WireSegment) ∧
    List.Pairwise (fun v w =>
      (v.a.x = v.b.x → w.a.x = w.b.x → v.a.x = w.a.x →
        max v.a.y v.b.y ≤ min w.a.y w.b.y ∨ max w.a.y w.b.y ≤ min v.a.y v.b.y) ∧
      (v.a.y = v.b.y → w.a.y = w.b.y → v.a.y = w.a.y →
        max v.a.x v.b.x ≤ min w.a.x w.b.x ∨ max w.a.x w.b.x ≤ min v.a.x v.b.x))
      ([⟨0, ⟨0, 0⟩, ⟨5, 0⟩⟩, ⟨1, ⟨5, 0⟩, ⟨10, 0⟩⟩,
        ⟨2, ⟨5, 0⟩, ⟨5, 7⟩⟩] : List WireSegment) :=
  C10_output_invariants [⟨0, ⟨0, 0⟩, ⟨10, 0⟩⟩, ⟨1, ⟨5, 0⟩, ⟨5, 7⟩⟩] []
    (fun i => i)
    [⟨0, ⟨0, 0⟩, ⟨5, 0⟩⟩, ⟨1, ⟨5, 0⟩, ⟨10, 0⟩⟩, ⟨2, ⟨5, 0⟩, ⟨5, 7⟩⟩] (by rfl)

/-- **C3 counterexample.** An extra junction point that lies on no run is NOT
a vertex of any output segment: wire `(0,0)-(10,0)` with extra point `(5,5)`
normalizes to the single unchanged segment, and `(5,5)` is an endpoint of
nothing in the output. -/
theorem C3_junction_vertex_counterexample :
    normalizeAndSegmentWires [⟨0, ⟨0, 0⟩, ⟨10, 0⟩⟩] [⟨5, 5⟩] (fun i => i) =
      .ok [⟨0, ⟨0, 0⟩, ⟨10, 0⟩⟩] ∧
    (⟨5, 5⟩ : Point) ∈ ([⟨5, 5⟩] : List Point) ∧
    ∀ w ∈ ([⟨0, ⟨0, 0⟩, ⟨10, 0⟩⟩] : List WireSegment),
      w.a ≠ (⟨5, 5⟩ : Point) ∧ w.b ≠ (⟨5, 5⟩ : Point) :=
  ⟨by rfl, by decide, by decide⟩

/-- **C3 amended.** Every supplied junction point — an extra point or a run
endpoint — that lies on some merged run is a vertex (an endpoint) of at least
one output segment of `normalizeAndSegmentWires`. (Extra points off every run
are dropped, see the counterexample.) -/
theorem C3_junction_vertex_amended (wires : List WireSegment) (extra : List Point)
    (mk : Nat → Nat) (out : List WireSegment) (p : Point)
    (hok : normalizeAndSegmentWires wires extra mk = .ok out)
    (hp : p ∈ extra ∨
      ∃ r ∈ coreRuns (wires.map (fun w => orientSegment w.a w.b)),
        p = r.a ∨ p = r.b)
    (hon : ∃ r ∈ coreRuns (wires.map (fun w => orientSegment w.a w.b)),
      pointOnSegment p r = true) :
    ∃ w ∈ out, w.a = p ∨ w.b = p := by
  unfold normalizeAndSegmentWires at hok
  by_cases hemp : wires.isEmpty = true
  · exfalso
    rw [List.isEmpty_iff] at hemp
    subst hemp
    obtain ⟨r, hr, -⟩ := hon
    rw [show coreRuns (List.map (fun w : WireSegment => orientSegment w.a w.b)
      ([] : List WireSegment)) = [] from rfl] at hr
    cases hr
  · rw [if_neg hemp] at hok
    rcases hm : mapExcept (fun w => normalizeSegment w.a w.b) wires with e | base0
    · rw [hm] at hok
      cases hok
    · rw [hm] at hok
      injection hok with hok
      subst hok
      have hwk := mapExcept_normalizeSegment_weakWf hm
      have hbase0 : base0 = wires.map (fun w => orientSegment w.a w.b) :=
        mapExcept_normalizeSegment_ok hm
      rw [← hbase0] at hp hon
      obtain ⟨hbase, hruns, hsep, hends, hpieces, hspan, hded, hdedp⟩ :=
        core_facts base0 extra hwk
      obtain ⟨r, hr, hpr⟩ := hon
      have hpj : p ∈ coreJunctions base0 extra := by
        rcases hp with hp | ⟨r', hr', hor⟩
        · exact mem_junctionsOf.mpr (Or.inr (Or.inl hp))
        · exact mem_junctionsOf.mpr (Or.inl ⟨r', hr', hor⟩)
      have hsplit := splitRun_spec (hruns r hr) (hends r hr).1 (hends r hr).2
      obtain ⟨s, hs, hor⟩ := hsplit.2.2.1 p hpj hpr
      have hsp : s ∈ corePieces base0 extra := by
        rw [corePieces, List.mem_flatMap]
        exact ⟨r, hr, hs⟩
      have hsd : s ∈ coreDeduped base0 extra := (hded s).mpr hsp
      obtain ⟨w, hw, h1, h2⟩ := (normalizeCore_mem base0 extra mk hwk).2 s hsd
      refine ⟨w, hw, ?_⟩
      rcases hor with hor | hor
      · left
        rw [h1, hor]
      · right
        rw [h2, hor]

/-- Witness for the amended C3: the extra point `(4,0)` on the run
`(0,0)-(10,0)` becomes a vertex of the output (the run is split there). -/
theorem C3_junction_vertex_witness :
    ∃ w ∈ ([⟨0, ⟨0, 0⟩, ⟨4, 0⟩⟩, ⟨1, ⟨4, 0⟩, ⟨10, 0⟩⟩] : List WireSegment),
      w.a = (⟨4, 0⟩ : Point) ∨ w.b = (⟨4, 0⟩ : Point) :=
  C3_junction_vertex_amended [⟨0, ⟨0, 0⟩, ⟨10, 0⟩⟩] [⟨4, 0⟩] (fun i => i)
    [⟨0, ⟨0, 0⟩, ⟨4, 0⟩⟩, ⟨1, ⟨4, 0⟩, ⟨10, 0⟩⟩] ⟨4, 0⟩ (by rfl)
    (Or.inl (by decide))
    ⟨⟨⟨0, 0⟩, ⟨10, 0⟩, Axis.h⟩, by decide, by decide⟩

/-- **C2.** Running `normalizeAndSegmentWires` a second time on its own output
with the same extra points is a no-op up to segment identity: the second pass
succeeds and produces the same set of `segmentKey` geometries (axis flag,
constant coordinate, min/max varying coordinate), ignoring ids. -/
theorem C2_normalize_idempotent (wires : List WireSegment) (extra : List Point)
    (mk1 mk2 : Nat → Nat) (out : List WireSegment)
    (hok : normalizeAndSegmentWires wires extra mk1 = .ok out) :
    ∃ out2, normalizeAndSegmentWires out extra mk2 = .ok out2 ∧
      ∀ k, (∃ w ∈ out2, segmentKey w.a w.b = k) ↔
        ∃ w ∈ out, segmentKey w.a w.b = k := by
  unfold normalizeAndSegmentWires at hok
  by_cases hemp : wires.isEmpty = true
  · rw [if_pos hemp] at hok
    injection hok with hok
    refine ⟨[], ?_, ?_⟩
    · rw [← hok]
      rfl
    · intro k
      constructor
      · rintro ⟨w, hw, -⟩
        cases hw
      · rintro ⟨w, hw, -⟩
        rw [← hok] at hw
        cases hw
  · rw [if_neg hemp] at hok
    rcases hm : mapExcept (fun w => normalizeSegment w.a w.b) wires with e | base0
    · rw [hm] at hok
      cases hok
    · rw [hm] at hok
      injection hok with hok
      subst hok
      have hwk := mapExcept_normalizeSegment_weakWf hm
      obtain ⟨hbase1, hruns1, hsep1, hends1, hpieces1, hspan1, hded1, hdedp1⟩ :=
        core_facts base0 extra hwk
      have hmem1 := normalizeCore_mem base0 extra mk1 hwk
      have haligned : ∀ w ∈ normalizeCore base0 extra mk1,
          ¬(w.a.x ≠ w.b.x ∧ w.a.y ≠ w.b.y) := by
        intro w hw hc
        obtain ⟨s, hs, hwf, h1, h2⟩ := hmem1.1 w hw
        rw [h1, h2] at hc
        obtain ⟨hcc, hvv⟩ := hwf
        cases hax : s.axis
        · rw [hax] at hcc
          exact hc.2 hcc
        · rw [hax] at hcc
          exact hc.1 hcc
      by_cases hout : (normalizeCore base0 extra mk1).isEmpty = true
      · refine ⟨[], ?_, ?_⟩
        · unfold normalizeAndSegmentWires
          rw [if_pos hout]
        · intro k
          rw [List.isEmpty_iff] at hout
          rw [hout]
      · unfold normalizeAndSegmentWires
        rw [if_neg hout, mapExcept_ok_of_aligned haligned]
        set base2 := (normalizeCore base0 extra mk1).map
          (fun w => orientSegment w.a w.b) with hbase2def
        refine ⟨normalizeCore base2 extra mk2, rfl, ?_⟩
        have hb2mem : ∀ s, s ∈ base2 ↔ s ∈ coreDeduped base0 extra := by
          intro s
          constructor
          · intro hs
            rw [hbase2def] at hs
            obtain ⟨w, hw, heq⟩ := List.mem_map.mp hs
            obtain ⟨t, ht, hwf, e1, e2⟩ := hmem1.1 w hw
            rw [← heq, e1, e2, orientSegment_id hwf]
            exact ht
          · intro hs
            have hwf := hpieces1 s ((hded1 s).mp hs)
            obtain ⟨w, hw, e1, e2⟩ := hmem1.2 s hs
            rw [hbase2def]
            refine List.mem_map.mpr ⟨w, hw, ?_⟩
            show orientSegment w.a w.b = s
            rw [e1, e2]
            exact orientSegment_id hwf
        have hwf2 : ∀ s ∈ base2, s.Wf := fun s hs =>
          hpieces1 s ((hded1 s).mp ((hb2mem s).mp hs))
        have hcb2 : coreBase base2 = base2 := filter_nondeg_eq hwf2
        have hb2 : ∀ s, s ∈ coreBase base2 ↔ s ∈ corePieces base0 extra := by
          intro s
          rw [hcb2, hb2mem s]
          exact hded1 s
        have hpiff := pieces_idem base0 extra base2 hwk hb2
        have hwk2 : ∀ s ∈ base2, s.WeakWf := fun s hs => (hwf2 s hs).weak
        have hmem2 := normalizeCore_mem base2 extra mk2 hwk2
        obtain ⟨-, -, -, -, hpieces2, -, hded2, -⟩ := core_facts base2 extra hwk2
        intro k
        constructor
        · rintro ⟨w, hw, hk⟩
          obtain ⟨s, hs, hwf, e1, e2⟩ := hmem2.1 w hw
          have hs1 : s ∈ coreDeduped base0 extra :=
            (hded1 s).mpr ((hpiff s).mp ((hded2 s).mp hs))
          obtain ⟨w', hw', f1, f2⟩ := hmem1.2 s hs1
          refine ⟨w', hw', ?_⟩
          rw [f1, f2, ← e1, ← e2]
          exact hk
        · rintro ⟨w, hw, hk⟩
          obtain ⟨s, hs, hwf, e1, e2⟩ := hmem1.1 w hw
          have hs2 : s ∈ coreDeduped base2 extra :=
            (hded2 s).mpr ((hpiff s).mpr ((hded1 s).mp hs))
          obtain ⟨w', hw', f1, f2⟩ := hmem2.2 s hs2
          refine ⟨w', hw', ?_⟩
          rw [f1, f2, ← e1, ← e2]
          exact hk

/-- Witness for C2: the single-wire input `(0,0)-(10,0)` normalizes to itself,
and renormalizing that output yields the same geometry key set. -/
theorem C2_normalize_idempotent_witness :
    ∃ out2, normalizeAndSegmentWires [⟨0, ⟨0, 0⟩, ⟨10, 0⟩⟩] [] (fun i => i) =
      .ok out2 ∧
      ∀ k, (∃ w ∈ out2, segmentKey w.a w.b = k) ↔
        ∃ w ∈ ([⟨0, ⟨0, 0⟩, ⟨10, 0⟩⟩] : List WireSegment),
          segmentKey w.a w.b = k :=
  C2_normalize_idempotent [⟨0, ⟨0, 0⟩, ⟨10, 0⟩⟩] [] (fun i => i) (fun i => i)
    [⟨0, ⟨0, 0⟩, ⟨10, 0⟩⟩] (by rfl)

end CircuitSim
